import Mathlib

/-!
m6502_as: the lexer and the LDA operand grammar of `main.cpp`.

A shallow embedding of `src/mos6502_as/main.cpp`.

* The source buffer is a `List Char`; the C pointers `pt`, `start`, `end` into it are
  offsets (`Nat`), and the null pointers that `init_tokenizer` stores in `start` and `end`
  are offset 0 (`next_token` writes `start` before any code reads it).  A read at an offset
  at or past the end of the list yields the NUL character, which is how the terminator
  `string[file_size] = 0` (and anything read after it) is seen by the code.
* The global `tokenizer` is passed and returned explicitly.
* `exit(1)` after a diagnostic and a failing `assert` are the `Except.error` results; the
  error carries what the diagnostic prints.
* A field of the local `Instr instr;` of `parse_lda` that no statement has assigned is
  `none`.
-/

namespace M6502

/-! ## Data model -/

/-- The enum `TokenKind` (lines 32-44). -/
inductive TokenKind where
  | TokenUnknown
  | TokenInstr
  | TokenHash
  | TokenDollar
  | TokenLParen
  | TokenRParen
  | TokenByte
  | TokenWord
  | TokenReg
  | TokenComma
  | TokenEof
  deriving DecidableEq, Repr

/-- The struct `Tokenizer` (lines 65-73); `end_` is the field `end`, and `val` is a
`uint16_t`. -/
structure Tokenizer where
  string : List Char
  pt : Nat
  kind : TokenKind
  start : Nat
  end_ : Nat
  val : Nat
  line : Nat
  deriving DecidableEq, Repr

/-- The enum `InstrKind` (lines 196-227). -/
inductive InstrKind where
  | InstrAdd | InstrAnd | InstrAsl | InstrBit | InstrBra | InstrBrk | InstrCmp | InstrCpx
  | InstrCpy | InstrDec | InstrEor | InstrFlag | InstrInc | InstrJsr | InstrLda | InstrLdx
  | InstrLdy | InstrLsr | InstrNop | InstrOra | InstrReg | InstrRol | InstrRor | InstrRti
  | InstrRts | InstrSbc | InstrSta | InstrStk | InstrStx | InstrSty
  deriving DecidableEq, Repr

/-- The enum `Mode` (lines 229-242). -/
inductive Mode where
  | ModeAcc | ModeImp | ModeImm | ModeAbs | ModeZp | ModeRel
  | ModeAix | ModeAiy | ModeZpx | ModeZpy | ModeIdx | ModeIdy
  deriving DecidableEq, Repr

/-- The enum `Register` (lines 244-248). -/
inductive Register where
  | RegA | RegX | RegY
  deriving DecidableEq, Repr

/-- The struct `Instr` (lines 250-256).  `kind` is assigned by every path that builds an
`Instr`; each other field is `none` until a statement assigns it. -/
structure Instr where
  kind : InstrKind
  mode : Option Mode
  op1 : Option Nat
  op2 : Option Nat
  reg : Option Register
  deriving DecidableEq, Repr

/-- The ways the program stops early: the five diagnostics followed by `exit(1)`, each with
the values it prints, and the `assert` of `parse_hex`. -/
inductive Error where
  /-- "expected token kind %s, found kind %s" (`expect_token`). -/
  | expected_token (line : Nat) (expected found : TokenKind)
  /-- "expected byte; got %s" (`expect_byte`). -/
  | expected_byte (line : Nat) (found : TokenKind)
  /-- "expected word; got %s" (`expect_word`). -/
  | expected_word (line : Nat) (found : TokenKind)
  /-- "expected byte value for immediate; got '%s'" (`parse_lda`). -/
  | expected_immediate_byte (line : Nat) (found : TokenKind)
  /-- "invalid register '%c' for LDA instruction" (`parse_lda`). -/
  | invalid_register (line : Nat) (found : Char)
  /-- The `assert('0' <= c && c <= '9')` of `parse_hex` failed. -/
  | assertion_failed
  deriving DecidableEq, Repr

deriving instance DecidableEq for Except

/-! ## Characters -/

/-- The character `*p` for the pointer at offset `i`.  Offset `s.length` is the terminator
`string[file_size] = 0`.  An offset past it lies outside the buffer of `file_size + 1`
bytes, where the C read is undefined; NUL is the answer given here by convention, and
`cursor_in_buffer` tells whether the cursor is still inside. -/
def char_at (s : List Char) (i : Nat) : Char :=
  s.getD i '\x00'

/-- The C library's `tolower` in the "C" locale. -/
def tolower (c : Char) : Char :=
  if 'A' ≤ c ∧ c ≤ 'Z' then Char.ofNat (c.toNat + 32) else c

/-- The C library's `isalnum` in the "C" locale: the ASCII digits and letters only. -/
def isalnum (c : Char) : Bool :=
  ('0' ≤ c && c ≤ '9') || ('a' ≤ c && c ≤ 'z') || ('A' ≤ c && c ≤ 'Z')

/-- The condition of the whitespace loop of `next_token` (line 111). -/
def is_space (c : Char) : Bool :=
  c == ' ' || c == '\t' || c == '\x0b' || c == '\r' || c == '\n'

/-- `is_hex` (lines 83-90). -/
def is_hex (c : Char) : Bool :=
  ('0' ≤ c && c ≤ '9') || ('a' ≤ c && c ≤ 'f') || ('A' ≤ c && c ≤ 'F')

/-! ## Lexer -/

/-- `init_tokenizer` (lines 76-81): every field zero, then the text, the cursor and line 1. -/
def init_tokenizer (str : List Char) : Tokenizer :=
  { string := str, pt := 0, kind := TokenKind.TokenUnknown, start := 0, end_ := 0, val := 0,
    line := 1 }

/-- The loop of `parse_hex` (lines 95-106) with `num_chars` iterations left, reading at
offset `str`; `result` is a `uint32_t`. -/
def parse_hex_loop (s : List Char) : Nat → Nat → Nat → Except Error Nat
  | 0, _, result => pure result
  | num_chars + 1, str, result =>
    let c := tolower (char_at s str)
    if 'a' ≤ c ∧ c ≤ 'f' then
      parse_hex_loop s num_chars (str + 1)
        ((16 * result + (10 + (c.toNat - 'a'.toNat))) % 2 ^ 32)
    else if '0' ≤ c ∧ c ≤ '9' then
      parse_hex_loop s num_chars (str + 1) ((16 * result + (c.toNat - '0'.toNat)) % 2 ^ 32)
    else
      throw Error.assertion_failed

/-- `parse_hex` (lines 92-108). -/
def parse_hex (s : List Char) (str : Nat) (num_chars : Nat) : Except Error Nat :=
  parse_hex_loop s num_chars str 0

/-- The whitespace loop of `next_token` (lines 111-116) over the text `cs` that starts at
the cursor: the cursor and the line counter when the loop exits. -/
def skip_whitespace : List Char → Nat → Nat → Nat × Nat
  | [], pt, line => (pt, line)
  | c :: cs, pt, line =>
    if is_space c then
      skip_whitespace cs (pt + 1) (if c = '\n' then line + 1 else line)
    else (pt, line)

/-- The loop `while (isalnum(*tokenizer.pt)) tokenizer.pt++` (lines 152-154) over the text
that starts at the cursor: the cursor when the loop exits. -/
def scan_alnum : List Char → Nat → Nat
  | [], pt => pt
  | c :: cs, pt => if isalnum c then scan_alnum cs (pt + 1) else pt

/-- The `default` case of the switch of `next_token` (lines 149-192); `start` is already
set. -/
def next_token_default (t : Tokenizer) : Except Error Tokenizer := do
  let t := { t with pt := scan_alnum (t.string.drop t.pt) t.pt }
  let len := t.pt - t.start
  let t ←
    if len = 1 then
      let c := char_at t.string t.start
      if c = 'A' ∨ c = 'a' ∨ c = 'X' ∨ c = 'x' ∨ c = 'Y' ∨ c = 'y' then
        pure { t with kind := TokenKind.TokenReg }
      else
        pure { t with kind := TokenKind.TokenUnknown }
    else if len = 2 then
      if is_hex (char_at t.string t.start) && is_hex (char_at t.string (t.start + 1)) then
        let t := { t with kind := TokenKind.TokenByte }
        let v ← parse_hex t.string t.start 2
        pure { t with val := v % 2 ^ 16 }
      else
        pure t
    else if len = 3 then
      pure { t with kind := TokenKind.TokenInstr, end_ := t.pt }
    else if len = 4 then
      if is_hex (char_at t.string t.start) && is_hex (char_at t.string (t.start + 1)) &&
          is_hex (char_at t.string (t.start + 2)) && is_hex (char_at t.string (t.start + 3)) then
        let t := { t with pt := t.pt + 4, kind := TokenKind.TokenWord }
        let v ← parse_hex t.string t.start 4
        pure { t with val := v % 2 ^ 16 }
      else
        pure t
    else
      pure { t with kind := TokenKind.TokenUnknown }
  pure { t with end_ := t.pt }

/-- `next_token` (lines 110-194). -/
def next_token (t : Tokenizer) : Except Error Tokenizer :=
  let p := skip_whitespace (t.string.drop t.pt) t.pt t.line
  let t := { t with pt := p.1, line := p.2 }
  if char_at t.string t.pt = '\x00' then
    pure { t with kind := TokenKind.TokenEof }
  else
    let t := { t with start := t.pt }
    let c := char_at t.string t.pt
    if c = '#' then
      pure { t with kind := TokenKind.TokenHash, pt := t.pt + 1, end_ := t.pt + 1 }
    else if c = '$' then
      pure { t with kind := TokenKind.TokenDollar, pt := t.pt + 1, end_ := t.pt + 1 }
    else if c = '(' then
      pure { t with kind := TokenKind.TokenLParen, pt := t.pt + 1, end_ := t.pt + 1 }
    else if c = ')' then
      pure { t with kind := TokenKind.TokenRParen, pt := t.pt + 1, end_ := t.pt + 1 }
    else if c = ',' then
      pure { t with kind := TokenKind.TokenComma, pt := t.pt + 1, end_ := t.pt + 1 }
    else
      next_token_default t

/-! ## Operand resolver -/

/-- `expect_token` (lines 258-265). -/
def expect_token (kind : TokenKind) (t : Tokenizer) : Except Error Tokenizer := do
  let t ← next_token t
  if t.kind ≠ kind then
    throw (Error.expected_token t.line kind t.kind)
  else
    pure t

/-- `match_token` (lines 267-270). -/
def match_token (kind : TokenKind) (t : Tokenizer) : Except Error (Bool × Tokenizer) := do
  let t ← next_token t
  pure (decide (t.kind = kind), t)

/-- `expect_byte` (lines 272-282). -/
def expect_byte (t : Tokenizer) : Except Error Tokenizer := do
  let t ← next_token t
  if t.kind = TokenKind.TokenDollar then
    let t ← next_token t
    if t.kind = TokenKind.TokenByte then
      pure t
    else
      throw (Error.expected_byte t.line t.kind)
  else
    throw (Error.expected_byte t.line t.kind)

/-- `match_byte` (lines 284-293). -/
def match_byte (t : Tokenizer) : Except Error (Bool × Tokenizer) := do
  let t ← next_token t
  if t.kind = TokenKind.TokenDollar then
    let t ← next_token t
    if t.kind = TokenKind.TokenByte then
      pure (true, t)
    else
      pure (false, t)
  else
    pure (false, t)

/-- `expect_word` (lines 295-305). -/
def expect_word (t : Tokenizer) : Except Error Tokenizer := do
  let t ← next_token t
  if t.kind = TokenKind.TokenDollar then
    let t ← next_token t
    if t.kind = TokenKind.TokenWord then
      pure t
    else
      throw (Error.expected_word t.line t.kind)
  else
    throw (Error.expected_word t.line t.kind)

/-- `match_word` (lines 307-316). -/
def match_word (t : Tokenizer) : Except Error (Bool × Tokenizer) := do
  let t ← next_token t
  if t.kind = TokenKind.TokenDollar then
    let t ← next_token t
    if t.kind = TokenKind.TokenWord then
      pure (true, t)
    else
      pure (false, t)
  else
    pure (false, t)

/-- `parse_lda` (lines 318-387): the instruction and the tokenizer it leaves. -/
def parse_lda (t : Tokenizer) : Except Error (Instr × Tokenizer) := do
  let instr : Instr :=
    { kind := InstrKind.InstrLda, mode := none, op1 := none, op2 := none, reg := none }
  let (m, t) ← match_token TokenKind.TokenHash t
  if m then
    let instr := { instr with mode := some Mode.ModeImm }
    let (m, t) ← match_byte t
    if m then
      pure ({ instr with op1 := some t.val }, t)
    else
      throw (Error.expected_immediate_byte t.line t.kind)
  else
    let (m, t) ← match_token TokenKind.TokenLParen t
    if m then
      let t ← expect_byte t
      let instr := { instr with op1 := some t.val }
      let (m, t) ← match_token TokenKind.TokenRParen t
      if m then
        let instr := { instr with mode := some Mode.ModeIdy }
        let t ← expect_token TokenKind.TokenComma t
        let t ← expect_token TokenKind.TokenReg t
        if char_at t.string t.start ≠ 'Y' then
          throw (Error.invalid_register t.line (char_at t.string t.start))
        else
          pure ({ instr with reg := some Register.RegY }, t)
      else
        let (m, t) ← match_token TokenKind.TokenComma t
        if m then
          let instr := { instr with mode := some Mode.ModeIdx }
          let t ← expect_token TokenKind.TokenReg t
          if char_at t.string t.start ≠ 'X' then
            throw (Error.invalid_register t.line (char_at t.string t.start))
          else
            let t ← expect_token TokenKind.TokenRParen t
            pure ({ instr with reg := some Register.RegX }, t)
        else
          pure (instr, t)
    else
      let (m, t) ← match_byte t
      if m then
        let instr := { instr with op1 := some t.val }
        let (m, t) ← match_token TokenKind.TokenComma t
        if m then
          let t ← expect_token TokenKind.TokenReg t
          if char_at t.string t.start ≠ 'X' then
            throw (Error.invalid_register t.line (char_at t.string t.start))
          else
            pure ({ instr with mode := some Mode.ModeZpx }, t)
        else
          pure ({ instr with mode := some Mode.ModeZp }, t)
      else
        let t ← expect_word t
        let instr := { instr with op1 := some t.val }
        let (m, t) ← match_token TokenKind.TokenComma t
        if m then
          let t ← expect_token TokenKind.TokenReg t
          if char_at t.string t.start = 'X' then
            pure ({ instr with mode := some Mode.ModeAix }, t)
          else if char_at t.string t.start = 'Y' then
            pure ({ instr with mode := some Mode.ModeAiy }, t)
          else
            throw (Error.invalid_register t.line (char_at t.string t.start))
        else
          pure (instr, t)

/-- The value-initialised `Instr{}` of line 395: every field zero. -/
def Instr.zero : Instr :=
  { kind := InstrKind.InstrAdd, mode := some Mode.ModeAcc, op1 := some 0, op2 := some 0,
    reg := some Register.RegA }

/-- `parse_instruction` (lines 389-396); `strncmp("LDA", tokenizer.start, 3) == 0` holds
exactly when the three characters at `start` are `L`, `D`, `A`. -/
def parse_instruction (t : Tokenizer) : Except Error (Instr × Tokenizer) := do
  let t ← expect_token TokenKind.TokenInstr t
  if char_at t.string t.start = 'L' ∧ char_at t.string (t.start + 1) = 'D' ∧
      char_at t.string (t.start + 2) = 'A' then
    parse_lda t
  else
    pure (Instr.zero, t)

/-! ## Driver -/

/-- The parse loop of `process_file` (lines 403-409), run for at most `fuel` iterations:
`none` when the iterations are used up before the loop exits, otherwise the instructions
pushed so far when it breaks, or the error that ended the run. -/
def parse_loop : Nat → Tokenizer → List Instr → Option (Except Error (List Instr))
  | 0, _, _ => none
  | fuel + 1, t, instructions =>
    match match_token TokenKind.TokenEof t with
    | .error e => some (.error e)
    | .ok (true, _) => some (.ok instructions)
    | .ok (false, t) =>
      match parse_instruction t with
      | .error e => some (.error e)
      | .ok (instr, t) => parse_loop fuel t (instructions ++ [instr])

/-- The output loop of `process_file` (lines 417-420) over the bytes `out` written so far:
its body is the comment `//emit_instruction(output_file, instr);`, so an iteration writes
nothing. -/
def emit_loop (out : List Nat) : List Instr → List Nat
  | [] => out
  | _instr :: instructions => emit_loop out instructions

/-- The parsing part of `process_file` (lines 401-409) on the source text `str`; an
iteration that neither breaks nor fails moves the cursor forward, so `str.length + 1`
iterations are enough. -/
def process_file (str : List Char) : Option (Except Error (List Instr)) :=
  parse_loop (str.length + 1) (init_tokenizer str) []

/-! ## Reference definitions for the statements -/

/-- The value of one hex digit, either letter case, as the spec states it ("each character
contributes 4 bits", "case-insensitive"); 0 for any other character. -/
def hex_digit_value (c : Char) : Nat :=
  if '0' ≤ c ∧ c ≤ '9' then c.toNat - '0'.toNat
  else if 'a' ≤ c ∧ c ≤ 'f' then 10 + (c.toNat - 'a'.toNat)
  else if 'A' ≤ c ∧ c ≤ 'F' then 10 + (c.toNat - 'A'.toNat)
  else 0

/-- The 22 characters that `is_hex` accepts. -/
def hex_chars : List Char :=
  "0123456789abcdefABCDEF".toList

/-- What the lexer needs to know about a hex digit. -/
structure HexFacts (c : Char) : Prop where
  not_space : is_space c = false
  alnum : isalnum c = true
  ne_nul : c ≠ '\x00'
  ne_hash : c ≠ '#'
  ne_dollar : c ≠ '$'
  ne_lparen : c ≠ '('
  ne_rparen : c ≠ ')'
  ne_comma : c ≠ ','
  value_lt : hex_digit_value c < 16
  digit : ('a' ≤ tolower c ∧ tolower c ≤ 'f' ∧
        10 + ((tolower c).toNat - 'a'.toNat) = hex_digit_value c) ∨
      (¬('a' ≤ tolower c ∧ tolower c ≤ 'f') ∧ '0' ≤ tolower c ∧ tolower c ≤ '9' ∧
        (tolower c).toNat - '0'.toNat = hex_digit_value c)

/-- The 62 characters that `isalnum` accepts. -/
def alnum_chars : List Char :=
  "0123456789abcdefghijklmnopqrstuvwxyzABCDEFGHIJKLMNOPQRSTUVWXYZ".toList

/-- What the lexer needs to know about an alphanumeric character. -/
structure AlnumFacts (c : Char) : Prop where
  not_space : is_space c = false
  ne_nul : c ≠ '\x00'
  ne_hash : c ≠ '#'
  ne_dollar : c ≠ '$'
  ne_lparen : c ≠ '('
  ne_rparen : c ≠ ')'
  ne_comma : c ≠ ','

/-- The reference base-16 value of a digit string, as the spec words it: "accumulate
`result = 16*result + digit`", most significant digit first, starting from 0. -/
def hex_value (ds : List Char) : Nat :=
  ds.foldl (fun result c => 16 * result + hex_digit_value c) 0

/-- The lower-case hex digit of a value below 16. -/
def hex_digit_lower (d : Nat) : Char :=
  "0123456789abcdef".toList.getD d '0'

/-- The upper-case hex digit of a value below 16. -/
def hex_digit_upper (d : Nat) : Char :=
  "0123456789ABCDEF".toList.getD d '0'

/-- The two-digit lower-case hex rendering of a byte. -/
def hex2_lower (v : Nat) : List Char :=
  [hex_digit_lower (v / 16), hex_digit_lower (v % 16)]

/-- The two-digit upper-case hex rendering of a byte. -/
def hex2_upper (v : Nat) : List Char :=
  [hex_digit_upper (v / 16), hex_digit_upper (v % 16)]

/-- `n` successive calls of `next_token`. -/
def next_tokens : Nat → Tokenizer → Except Error Tokenizer
  | 0, t => pure t
  | n + 1, t => next_token t >>= next_tokens n

/-- The cursor points into the buffer that `main` allocates for the text (`file_size + 1`
bytes: the text and its terminator), so that the read `*tokenizer.pt` is defined. -/
def cursor_in_buffer (t : Tokenizer) : Bool :=
  decide (t.pt ≤ t.string.length)

/-- The tokenizer `t'` reads the same text as `t` and its cursor is not before that of
`t`. -/
def Advances (t t' : Tokenizer) : Prop :=
  t'.string = t.string ∧ t.pt ≤ t'.pt

/-! ## Lemmas on the lexer -/

/-- A character whose code lies in `[lo, hi]` is one of the characters with those codes. -/
theorem char_of_toNat_range (c : Char) (lo hi : Nat) (hlo : lo ≤ c.toNat) (hhi : c.toNat ≤ hi) :
    c ∈ (List.range' lo (hi + 1 - lo)).map Char.ofNat := by
  rw [List.mem_map]
  refine ⟨c.toNat, ?_, Char.ofNat_toNat c⟩
  rw [List.mem_range']
  exact ⟨c.toNat - lo, by omega, by omega⟩

/-- Every character that `is_hex` accepts is one of the 22 of `hex_chars`. -/
theorem mem_hex_chars {c : Char} (h : is_hex c = true) : c ∈ hex_chars := by
  simp only [is_hex, Bool.or_eq_true, Bool.and_eq_true, decide_eq_true_eq] at h
  rcases h with (⟨h1, h2⟩ | ⟨h1, h2⟩) | ⟨h1, h2⟩
  · have hsub : ∀ d ∈ (List.range' 48 (57 + 1 - 48)).map Char.ofNat, d ∈ hex_chars := by decide
    exact hsub c (char_of_toNat_range c 48 57 h1 h2)
  · have hsub : ∀ d ∈ (List.range' 97 (102 + 1 - 97)).map Char.ofNat, d ∈ hex_chars := by decide
    exact hsub c (char_of_toNat_range c 97 102 h1 h2)
  · have hsub : ∀ d ∈ (List.range' 65 (70 + 1 - 65)).map Char.ofNat, d ∈ hex_chars := by decide
    exact hsub c (char_of_toNat_range c 65 70 h1 h2)

/-- The facts of `HexFacts` hold of every character that `is_hex` accepts. -/
theorem hex_facts {c : Char} (h : is_hex c = true) : HexFacts c := by
  have key : ∀ d ∈ hex_chars,
      is_space d = false ∧ isalnum d = true ∧ d ≠ '\x00' ∧ d ≠ '#' ∧ d ≠ '$' ∧ d ≠ '(' ∧
      d ≠ ')' ∧ d ≠ ',' ∧ hex_digit_value d < 16 ∧
      (('a' ≤ tolower d ∧ tolower d ≤ 'f' ∧
        10 + ((tolower d).toNat - 'a'.toNat) = hex_digit_value d) ∨
      (¬('a' ≤ tolower d ∧ tolower d ≤ 'f') ∧ '0' ≤ tolower d ∧ tolower d ≤ '9' ∧
        (tolower d).toNat - '0'.toNat = hex_digit_value d)) := by
    decide
  obtain ⟨h1, h2, h3, h4, h5, h6, h7, h8, h9, h10⟩ := key c (mem_hex_chars h)
  exact ⟨h1, h2, h3, h4, h5, h6, h7, h8, h9, h10⟩

/-- Reading at `p + k` is reading the `k`-th character of the text from `p` on. -/
theorem char_at_of_drop {s : List Char} {p : Nat} {l : List Char} (h : s.drop p = l)
    (k : Nat) : char_at s (p + k) = l.getD k '\x00' := by
  subst h
  simp [char_at, List.getD, List.getElem?_drop]

/-- The whitespace loop runs through a whitespace prefix, counting its newlines. -/
theorem skip_whitespace_append (ws rest : List Char) (hws : ∀ c ∈ ws, is_space c = true)
    (pt line : Nat) :
    skip_whitespace (ws ++ rest) pt line =
      skip_whitespace rest (pt + ws.length) (line + ws.count '\n') := by
  induction ws generalizing pt line with
  | nil => simp
  | cons c cs ih =>
    have hc : is_space c = true := hws c (List.mem_cons_self _ _)
    have hcs : ∀ d ∈ cs, is_space d = true := fun d hd => hws d (List.mem_cons_of_mem _ hd)
    have hstep : skip_whitespace (c :: cs ++ rest) pt line =
        skip_whitespace (cs ++ rest) (pt + 1) (if c = '\n' then line + 1 else line) := by
      rw [List.cons_append]
      simp only [skip_whitespace, hc, if_true]
    rw [hstep, ih hcs]
    by_cases hn : c = '\n'
    · rw [if_pos hn, hn, List.count_cons_self, List.length_cons]
      congr 1 <;> omega
    · rw [if_neg hn, List.count_cons_of_ne (Ne.symm hn), List.length_cons]
      congr 1; omega

/-- The whitespace loop stops at a character that is not whitespace. -/
theorem skip_whitespace_stop (c : Char) (cs : List Char) (hc : is_space c = false)
    (pt line : Nat) : skip_whitespace (c :: cs) pt line = (pt, line) := by
  simp [skip_whitespace, hc]

/-- The `isalnum` loop runs to the end of a maximal alphanumeric run. -/
theorem scan_alnum_run (run rest : List Char) (hrun : ∀ c ∈ run, isalnum c = true)
    (hrest : ∀ c ∈ rest.head?, isalnum c = false) (pt : Nat) :
    scan_alnum (run ++ rest) pt = pt + run.length := by
  induction run generalizing pt with
  | nil =>
    cases rest with
    | nil => simp [scan_alnum]
    | cons c cs => simp [scan_alnum, hrest c (by simp)]
  | cons c cs ih =>
    have hc : isalnum c = true := hrun c (List.mem_cons_self _ _)
    have hcs : ∀ d ∈ cs, isalnum d = true := fun d hd => hrun d (List.mem_cons_of_mem _ hd)
    have hstep : scan_alnum (c :: cs ++ rest) pt = scan_alnum (cs ++ rest) (pt + 1) := by
      rw [List.cons_append]
      simp only [scan_alnum, hc, if_true]
    rw [hstep, ih hcs, List.length_cons]
    omega

/-- One iteration of the loop of `parse_hex` on a hex digit: no assertion failure, and the
digit contributes its reference value. -/
theorem parse_hex_loop_step (s : List Char) (n str r : Nat) (h : is_hex (char_at s str) = true) :
    parse_hex_loop s (n + 1) str r =
      parse_hex_loop s n (str + 1) ((16 * r + hex_digit_value (char_at s str)) % 2 ^ 32) := by
  rcases (hex_facts h).digit with ⟨h1, h2, h3⟩ | ⟨h1, h2, h3, h4⟩
  · simp only [parse_hex_loop, h1, h2, and_self, if_true, h3]
  · simp only [parse_hex_loop, h1, h2, h3, and_self, if_true, if_false, h4]


/-- The text from the cursor on, once a prefix `ws` of it is skipped. -/
theorem drop_past_whitespace {s : List Char} {p : Nat} {ws l : List Char}
    (h : s.drop p = ws ++ l) : s.drop (p + ws.length) = l := by
  rw [← List.drop_drop, h, List.drop_left]

/-- The function `parse_hex` on two hex digits. -/
theorem parse_hex_two (s : List Char) (str : Nat) (c1 c0 : Char)
    (e1 : char_at s str = c1) (e0 : char_at s (str + 1) = c0)
    (h1 : is_hex c1 = true) (h0 : is_hex c0 = true) :
    parse_hex s str 2 = Except.ok (16 * hex_digit_value c1 + hex_digit_value c0) := by
  have v1 := (hex_facts h1).value_lt
  have v0 := (hex_facts h0).value_lt
  rw [parse_hex, parse_hex_loop_step s 1 str 0 (by rw [e1]; exact h1),
    parse_hex_loop_step s 0 (str + 1) _ (by rw [e0]; exact h0), e1, e0]
  simp only [parse_hex_loop, pure, Except.pure]
  congr 1
  omega

/-- The tokenizer that `next_token` leaves after a maximal run of exactly two hex digits. -/
theorem next_token_byte (t : Tokenizer) (ws rest : List Char) (c1 c0 : Char)
    (hsrc : t.string.drop t.pt = ws ++ c1 :: c0 :: rest)
    (hws : ∀ c ∈ ws, is_space c = true) (h1 : is_hex c1 = true) (h0 : is_hex c0 = true)
    (hrest : ∀ c ∈ rest.head?, isalnum c = false) :
    next_token t = Except.ok
      { t with
        pt := t.pt + ws.length + 2, line := t.line + ws.count '\n',
        kind := TokenKind.TokenByte, start := t.pt + ws.length,
        end_ := t.pt + ws.length + 2,
        val := 16 * hex_digit_value c1 + hex_digit_value c0 } := by
  have f1 := hex_facts h1
  have f0 := hex_facts h0
  have hdrop := drop_past_whitespace hsrc
  have hskip : skip_whitespace (t.string.drop t.pt) t.pt t.line =
      (t.pt + ws.length, t.line + ws.count '\n') := by
    rw [hsrc, skip_whitespace_append _ _ hws, skip_whitespace_stop _ _ f1.not_space]
  have e1 : char_at t.string (t.pt + ws.length) = c1 := char_at_of_drop hdrop 0
  have e0 : char_at t.string (t.pt + ws.length + 1) = c0 := char_at_of_drop hdrop 1
  have hscan : scan_alnum (c1 :: c0 :: rest) (t.pt + ws.length) = t.pt + ws.length + 2 :=
    scan_alnum_run [c1, c0] rest
      (by intro c hc; simp at hc; rcases hc with rfl | rfl; exact f1.alnum; exact f0.alnum)
      hrest _
  have hval : (16 * hex_digit_value c1 + hex_digit_value c0) % 2 ^ 16 =
      16 * hex_digit_value c1 + hex_digit_value c0 := by
    have v1 := f1.value_lt
    have v0 := f0.value_lt
    omega
  simp only [next_token, hskip, e1, f1.ne_nul, f1.ne_hash, f1.ne_dollar, f1.ne_lparen,
    f1.ne_rparen, f1.ne_comma, if_false, next_token_default, hdrop, hscan]
  have hlen : t.pt + ws.length + 2 - (t.pt + ws.length) = 2 := by omega
  have hp := parse_hex_two t.string (t.pt + ws.length) c1 c0 e1 e0 h1 h0
  simp only [hlen, e0, h1, h0, hp, hval, Bool.and_self, if_true, bind, Except.bind, pure,
    Except.pure]
  simp

/-- The function `parse_hex` on four hex digits. -/
theorem parse_hex_four (s : List Char) (str : Nat) (c3 c2 c1 c0 : Char)
    (e3 : char_at s str = c3) (e2 : char_at s (str + 1) = c2)
    (e1 : char_at s (str + 2) = c1) (e0 : char_at s (str + 3) = c0)
    (h3 : is_hex c3 = true) (h2 : is_hex c2 = true)
    (h1 : is_hex c1 = true) (h0 : is_hex c0 = true) :
    parse_hex s str 4 = Except.ok (4096 * hex_digit_value c3 + 256 * hex_digit_value c2 +
      16 * hex_digit_value c1 + hex_digit_value c0) := by
  have v3 := (hex_facts h3).value_lt
  have v2 := (hex_facts h2).value_lt
  have v1 := (hex_facts h1).value_lt
  have v0 := (hex_facts h0).value_lt
  rw [parse_hex, parse_hex_loop_step s 3 str 0 (by rw [e3]; exact h3),
    parse_hex_loop_step s 2 (str + 1) _ (by rw [e2]; exact h2),
    parse_hex_loop_step s 1 (str + 1 + 1) _ (by rw [e1]; exact h1),
    parse_hex_loop_step s 0 (str + 1 + 1 + 1) _ (by rw [e0]; exact h0), e3, e2, e1, e0]
  simp only [parse_hex_loop, pure, Except.pure]
  congr 1
  omega

/-- The tokenizer that `next_token` leaves after a maximal run of exactly four hex digits:
the cursor is eight characters past the start of the run. -/
theorem next_token_word (t : Tokenizer) (ws rest : List Char) (c3 c2 c1 c0 : Char)
    (hsrc : t.string.drop t.pt = ws ++ c3 :: c2 :: c1 :: c0 :: rest)
    (hws : ∀ c ∈ ws, is_space c = true) (h3 : is_hex c3 = true) (h2 : is_hex c2 = true)
    (h1 : is_hex c1 = true) (h0 : is_hex c0 = true)
    (hrest : ∀ c ∈ rest.head?, isalnum c = false) :
    next_token t = Except.ok
      { t with
        pt := t.pt + ws.length + 4 + 4, line := t.line + ws.count '\n',
        kind := TokenKind.TokenWord, start := t.pt + ws.length,
        end_ := t.pt + ws.length + 4 + 4,
        val := 4096 * hex_digit_value c3 + 256 * hex_digit_value c2 +
          16 * hex_digit_value c1 + hex_digit_value c0 } := by
  have f3 := hex_facts h3
  have f2 := hex_facts h2
  have f1 := hex_facts h1
  have f0 := hex_facts h0
  have hdrop := drop_past_whitespace hsrc
  have hskip : skip_whitespace (t.string.drop t.pt) t.pt t.line =
      (t.pt + ws.length, t.line + ws.count '\n') := by
    rw [hsrc, skip_whitespace_append _ _ hws, skip_whitespace_stop _ _ f3.not_space]
  have e3 : char_at t.string (t.pt + ws.length) = c3 := char_at_of_drop hdrop 0
  have e2 : char_at t.string (t.pt + ws.length + 1) = c2 := char_at_of_drop hdrop 1
  have e1 : char_at t.string (t.pt + ws.length + 2) = c1 := char_at_of_drop hdrop 2
  have e0 : char_at t.string (t.pt + ws.length + 3) = c0 := char_at_of_drop hdrop 3
  have hscan : scan_alnum (c3 :: c2 :: c1 :: c0 :: rest) (t.pt + ws.length) =
      t.pt + ws.length + 4 :=
    scan_alnum_run [c3, c2, c1, c0] rest
      (by
        intro c hc
        simp only [List.mem_cons, List.mem_singleton, List.not_mem_nil, or_false] at hc
        rcases hc with rfl | rfl | rfl | rfl
        · exact f3.alnum
        · exact f2.alnum
        · exact f1.alnum
        · exact f0.alnum)
      hrest _
  have hval : (4096 * hex_digit_value c3 + 256 * hex_digit_value c2 +
      16 * hex_digit_value c1 + hex_digit_value c0) % 2 ^ 16 =
      4096 * hex_digit_value c3 + 256 * hex_digit_value c2 +
      16 * hex_digit_value c1 + hex_digit_value c0 := by
    have v3 := f3.value_lt
    have v2 := f2.value_lt
    have v1 := f1.value_lt
    have v0 := f0.value_lt
    omega
  simp only [next_token, hskip, e3, f3.ne_nul, f3.ne_hash, f3.ne_dollar, f3.ne_lparen,
    f3.ne_rparen, f3.ne_comma, if_false, next_token_default, hdrop, hscan]
  have hlen : t.pt + ws.length + 4 - (t.pt + ws.length) = 4 := by omega
  have hp := parse_hex_four t.string (t.pt + ws.length) c3 c2 c1 c0 e3 e2 e1 e0 h3 h2 h1 h0
  simp only [hlen, e2, e1, e0, h3, h2, h1, h0, hp, hval, Bool.and_self, if_true, bind,
    Except.bind, pure, Except.pure]
  simp

/-- Every character that `isalnum` accepts is one of the 62 of `alnum_chars`. -/
theorem mem_alnum_chars {c : Char} (h : isalnum c = true) : c ∈ alnum_chars := by
  simp only [isalnum, Bool.or_eq_true, Bool.and_eq_true, decide_eq_true_eq] at h
  rcases h with (⟨h1, h2⟩ | ⟨h1, h2⟩) | ⟨h1, h2⟩
  · have hsub : ∀ d ∈ (List.range' 48 (57 + 1 - 48)).map Char.ofNat, d ∈ alnum_chars := by
      decide
    exact hsub c (char_of_toNat_range c 48 57 h1 h2)
  · have hsub : ∀ d ∈ (List.range' 97 (122 + 1 - 97)).map Char.ofNat, d ∈ alnum_chars := by
      decide
    exact hsub c (char_of_toNat_range c 97 122 h1 h2)
  · have hsub : ∀ d ∈ (List.range' 65 (90 + 1 - 65)).map Char.ofNat, d ∈ alnum_chars := by
      decide
    exact hsub c (char_of_toNat_range c 65 90 h1 h2)

/-- The facts of `AlnumFacts` hold of every character that `isalnum` accepts. -/
theorem alnum_facts {c : Char} (h : isalnum c = true) : AlnumFacts c := by
  have key : ∀ d ∈ alnum_chars,
      is_space d = false ∧ d ≠ '\x00' ∧ d ≠ '#' ∧ d ≠ '$' ∧ d ≠ '(' ∧ d ≠ ')' ∧ d ≠ ',' := by
    decide
  obtain ⟨h1, h2, h3, h4, h5, h6, h7⟩ := key c (mem_alnum_chars h)
  exact ⟨h1, h2, h3, h4, h5, h6, h7⟩

/-- Leading whitespace only moves the cursor and the line counter: `next_token` from the
start of `w ++ r` is `next_token` from the start of `r` with the newlines of `w` counted. -/
theorem next_token_skip_whitespace (t : Tokenizer) (w r : List Char)
    (hsrc : t.string.drop t.pt = w ++ r) (hw : ∀ c ∈ w, is_space c = true) :
    next_token t =
      next_token { t with pt := t.pt + w.length, line := t.line + w.count '\n' } := by
  have hdrop := drop_past_whitespace hsrc
  simp only [next_token, hsrc, hdrop, skip_whitespace_append w r hw]

/-- At the first character of an alphanumeric run `next_token` takes the `default` case, and
the `isalnum` loop stops at the end of the run. -/
theorem next_token_run (t : Tokenizer) (run rest : List Char)
    (hsrc : t.string.drop t.pt = run ++ rest) (hrun : ∀ c ∈ run, isalnum c = true)
    (hne : run ≠ []) (hrest : ∀ c ∈ rest.head?, isalnum c = false) :
    next_token t = next_token_default { t with start := t.pt } ∧
      scan_alnum (t.string.drop t.pt) t.pt = t.pt + run.length := by
  constructor
  · obtain ⟨c, cs, rfl⟩ := List.exists_cons_of_ne_nil hne
    have f := alnum_facts (hrun c (List.mem_cons_self _ _))
    have e : char_at t.string t.pt = c := by
      simpa using char_at_of_drop hsrc 0
    have hskip : skip_whitespace (t.string.drop t.pt) t.pt t.line = (t.pt, t.line) := by
      rw [hsrc]
      exact skip_whitespace_stop c _ f.not_space _ _
    simp only [next_token, hskip, e, f.ne_nul, f.ne_hash, f.ne_dollar, f.ne_lparen,
      f.ne_rparen, f.ne_comma, if_false]
  · rw [hsrc]
    exact scan_alnum_run run rest hrun hrest _


/-- The five single-character tokens: at `#`, `$`, `(`, `)` or `,` the switch of
`next_token` assigns the kind of that character and moves the cursor by one. -/
theorem next_token_punct (t : Tokenizer) (c : Char) (rest : List Char)
    (hsrc : t.string.drop t.pt = c :: rest) :
    (c = '#' → next_token t = Except.ok
      { t with start := t.pt, kind := TokenKind.TokenHash, pt := t.pt + 1,
               end_ := t.pt + 1 }) ∧
    (c = '$' → next_token t = Except.ok
      { t with start := t.pt, kind := TokenKind.TokenDollar, pt := t.pt + 1,
               end_ := t.pt + 1 }) ∧
    (c = '(' → next_token t = Except.ok
      { t with start := t.pt, kind := TokenKind.TokenLParen, pt := t.pt + 1,
               end_ := t.pt + 1 }) ∧
    (c = ')' → next_token t = Except.ok
      { t with start := t.pt, kind := TokenKind.TokenRParen, pt := t.pt + 1,
               end_ := t.pt + 1 }) ∧
    (c = ',' → next_token t = Except.ok
      { t with start := t.pt, kind := TokenKind.TokenComma, pt := t.pt + 1,
               end_ := t.pt + 1 }) := by
  have e : char_at t.string t.pt = c := by
    simpa using char_at_of_drop hsrc 0
  have hskip : is_space c = false →
      skip_whitespace (t.string.drop t.pt) t.pt t.line = (t.pt, t.line) := by
    intro hc
    rw [hsrc]
    exact skip_whitespace_stop c _ hc _ _
  refine ⟨?_, ?_, ?_, ?_, ?_⟩ <;> intro hc <;> subst hc <;>
    simp only [next_token, hskip (by decide), e] <;> rfl

/-- The kind that `next_token` assigns at a maximal alphanumeric run of length 1, of
length 3 and of length 5 or more (no leading whitespace). -/
theorem next_token_run_kind (t : Tokenizer) (run rest : List Char)
    (hsrc : t.string.drop t.pt = run ++ rest) (hrun : ∀ c ∈ run, isalnum c = true)
    (hrest : ∀ c ∈ rest.head?, isalnum c = false) :
    (∀ c, run = [c] → next_token t = Except.ok
      { t with
        start := t.pt, pt := t.pt + 1, end_ := t.pt + 1,
        kind := if c = 'A' ∨ c = 'a' ∨ c = 'X' ∨ c = 'x' ∨ c = 'Y' ∨ c = 'y'
          then TokenKind.TokenReg else TokenKind.TokenUnknown }) ∧
    (run.length = 3 → next_token t = Except.ok
      { t with
        start := t.pt, pt := t.pt + 3, end_ := t.pt + 3, kind := TokenKind.TokenInstr }) ∧
    (5 ≤ run.length → next_token t = Except.ok
      { t with
        start := t.pt, pt := t.pt + run.length, end_ := t.pt + run.length,
        kind := TokenKind.TokenUnknown }) := by
  refine ⟨?_, ?_, ?_⟩
  · intro c hc
    subst hc
    obtain ⟨h1, h2⟩ := next_token_run t [c] rest hsrc hrun (by simp) hrest
    have e : char_at t.string t.pt = c := by
      simpa using char_at_of_drop hsrc 0
    have hlen : t.pt + 1 - t.pt = 1 := by omega
    rw [h1]
    simp only [next_token_default, h2, List.length_singleton, hlen, e, if_true]
    split <;> rfl
  · intro hlen3
    have hne : run ≠ [] := by
      intro h
      rw [h] at hlen3
      simp at hlen3
    obtain ⟨h1, h2⟩ := next_token_run t run rest hsrc hrun hne hrest
    have hlen : t.pt + 3 - t.pt = 3 := by omega
    rw [h1]
    simp only [next_token_default, h2, hlen3, hlen]
    rfl
  · intro hlen5
    have hne : run ≠ [] := by
      intro h
      rw [h] at hlen5
      simp at hlen5
    obtain ⟨h1, h2⟩ := next_token_run t run rest hsrc hrun hne hrest
    have hl1 : ¬ (t.pt + run.length - t.pt = 1) := by omega
    have hl2 : ¬ (t.pt + run.length - t.pt = 2) := by omega
    have hl3 : ¬ (t.pt + run.length - t.pt = 3) := by omega
    have hl4 : ¬ (t.pt + run.length - t.pt = 4) := by omega
    rw [h1]
    simp only [next_token_default, h2, hl1, hl2, hl3, hl4, if_false]
    rfl

/-- The fold of `hex_value` from an accumulator `r` is `r` shifted by the digits. -/
theorem hex_fold_eq (ds : List Char) (r : Nat) :
    ds.foldl (fun result c => 16 * result + hex_digit_value c) r =
      r * 16 ^ ds.length + hex_value ds := by
  induction ds generalizing r with
  | nil => simp [hex_value]
  | cons c cs ih =>
    simp only [List.foldl_cons, List.length_cons, hex_value]
    rw [ih, ih (16 * 0 + hex_digit_value c)]
    ring

/-- The value of a digit string, digit by digit from the most significant one. -/
theorem hex_value_cons (c : Char) (cs : List Char) :
    hex_value (c :: cs) = hex_digit_value c * 16 ^ cs.length + hex_value cs := by
  simp only [hex_value, List.foldl_cons]
  rw [hex_fold_eq]
  simp [hex_value]

/-- The reference value is the positional sum of the digits. -/
theorem hex_value_eq_sum (ds : List Char) :
    hex_value ds =
      ∑ i in Finset.range ds.length,
        hex_digit_value (ds.getD i '0') * 16 ^ (ds.length - 1 - i) := by
  induction ds with
  | nil => simp [hex_value]
  | cons c cs ih =>
    rw [hex_value_cons, List.length_cons, Finset.sum_range_succ', ih, Nat.add_comm]
    congr 1
    apply Finset.sum_congr rfl
    intro i _
    have h : cs.length + 1 - 1 - (i + 1) = cs.length - 1 - i := by omega
    rw [h]
    rfl

/-- A string of `n` hex digits has a value below `16 ^ n`. -/
theorem hex_value_lt (ds : List Char) (hhex : ∀ c ∈ ds, is_hex c = true) :
    hex_value ds < 16 ^ ds.length := by
  induction ds with
  | nil => simp [hex_value]
  | cons c cs ih =>
    have hv := (hex_facts (hhex c (List.mem_cons_self _ _))).value_lt
    have hcs := ih (fun d hd => hhex d (List.mem_cons_of_mem _ hd))
    rw [hex_value_cons, List.length_cons, pow_succ]
    nlinarith

/-- The loop of `parse_hex` over hex digits `ds`, entered with an accumulator below
`16 ^ k` where `k + ds.length ≤ 8`: no `uint32_t` wrap-around and no assertion failure. -/
theorem parse_hex_loop_digits (s : List Char) (ds rest : List Char)
    (hhex : ∀ c ∈ ds, is_hex c = true) (str r k : Nat)
    (hsrc : s.drop str = ds ++ rest) (hr : r < 16 ^ k) (hk : k + ds.length ≤ 8) :
    parse_hex_loop s ds.length str r =
      Except.ok (ds.foldl (fun result c => 16 * result + hex_digit_value c) r) := by
  induction ds generalizing str r k with
  | nil => simp [parse_hex_loop, pure, Except.pure]
  | cons c cs ih =>
    have hc : is_hex c = true := hhex c (List.mem_cons_self _ _)
    have hv := (hex_facts hc).value_lt
    have e : char_at s str = c := by
      simpa using char_at_of_drop hsrc 0
    have hdrop : s.drop (str + 1) = cs ++ rest :=
      @drop_past_whitespace s str [c] (cs ++ rest) (by simpa using hsrc)
    have hlen : k + 1 + cs.length ≤ 8 := by
      simp only [List.length_cons] at hk
      omega
    have hpow : 16 ^ (k + 1) ≤ 2 ^ 32 := by
      calc 16 ^ (k + 1) ≤ 16 ^ 8 := Nat.pow_le_pow_right (by norm_num) (by omega)
        _ = 2 ^ 32 := by norm_num
    have hr' : 16 * r + hex_digit_value c < 16 ^ (k + 1) := by
      rw [pow_succ]
      omega
    rw [List.length_cons, parse_hex_loop_step s cs.length str r (by rw [e]; exact hc), e,
      Nat.mod_eq_of_lt (lt_of_lt_of_le hr' hpow), List.foldl_cons]
    exact ih (fun d hd => hhex d (List.mem_cons_of_mem _ hd)) (str + 1) _ (k + 1) hdrop hr'
      hlen

/-- On up to eight hex digits `parse_hex` returns their reference value. -/
theorem parse_hex_digits (s : List Char) (str : Nat) (ds rest : List Char)
    (hsrc : s.drop str = ds ++ rest) (hhex : ∀ c ∈ ds, is_hex c = true)
    (h8 : ds.length ≤ 8) :
    parse_hex s str ds.length = Except.ok (hex_value ds) := by
  rw [parse_hex, parse_hex_loop_digits s ds rest hhex str 0 0 hsrc (by norm_num) (by omega)]
  rfl

/-- Upper-casing and lower-casing a hex digit gives a hex digit of the same value. -/
theorem hex_digit_case {c : Char} (h : is_hex c = true) :
    is_hex c.toUpper = true ∧ is_hex c.toLower = true ∧
      hex_digit_value c.toUpper = hex_digit_value c ∧
      hex_digit_value c.toLower = hex_digit_value c := by
  have key : ∀ d ∈ hex_chars,
      is_hex d.toUpper = true ∧ is_hex d.toLower = true ∧
        hex_digit_value d.toUpper = hex_digit_value d ∧
        hex_digit_value d.toLower = hex_digit_value d := by
    decide
  exact key c (mem_hex_chars h)

/-- Changing the letter case of the digits does not change the reference value. -/
theorem hex_value_map_case (ds : List Char) (hhex : ∀ c ∈ ds, is_hex c = true) :
    hex_value (ds.map Char.toUpper) = hex_value ds ∧
      hex_value (ds.map Char.toLower) = hex_value ds := by
  induction ds with
  | nil => simp
  | cons c cs ih =>
    obtain ⟨_, _, hu, hl⟩ := hex_digit_case (hhex c (List.mem_cons_self _ _))
    obtain ⟨iu, il⟩ := ih (fun d hd => hhex d (List.mem_cons_of_mem _ hd))
    simp only [List.map_cons, hex_value_cons, List.length_map, hu, hl, iu, il, and_self]

set_option maxRecDepth 100000 in
/-- Every byte is the value that `parse_hex` returns on its two-digit rendering, lower-case
and upper-case. -/
theorem parse_hex_hex2 :
    ∀ b < 256, parse_hex (hex2_lower b) 0 2 = Except.ok b ∧
      parse_hex (hex2_upper b) 0 2 = Except.ok b := by
  decide

/-- The `default` case of `next_token` never fails: `parse_hex` is only called on
characters that passed `is_hex`. -/
theorem next_token_default_ok (t : Tokenizer) : ∃ t', next_token_default t = Except.ok t' := by
  simp only [next_token_default]
  split_ifs with h1 h2 h3 h4 h5 h6 h7
  all_goals first
    | exact ⟨_, rfl⟩
    | skip
  · simp only [Bool.and_eq_true] at h4
    rw [parse_hex_two _ _ _ _ rfl rfl h4.1 h4.2]
    exact ⟨_, rfl⟩
  · simp only [Bool.and_eq_true] at h7
    rw [parse_hex_four _ _ _ _ _ _ rfl rfl rfl rfl h7.1.1.1 h7.1.1.2 h7.1.2 h7.2]
    exact ⟨_, rfl⟩

/-- In every tokenizer state `next_token` returns a token. -/
theorem next_token_ok (t : Tokenizer) : ∃ t', next_token t = Except.ok t' := by
  simp only [next_token]
  split_ifs
  · exact ⟨_, rfl⟩
  · exact ⟨_, rfl⟩
  · exact ⟨_, rfl⟩
  · exact ⟨_, rfl⟩
  · exact ⟨_, rfl⟩
  · exact ⟨_, rfl⟩
  · exact next_token_default_ok _

/-- Any number of `next_token` calls returns a tokenizer. -/
theorem next_tokens_ok (n : Nat) (t : Tokenizer) : ∃ t', next_tokens n t = Except.ok t' := by
  induction n generalizing t with
  | zero => exact ⟨t, rfl⟩
  | succ n ih =>
    obtain ⟨t1, h1⟩ := next_token_ok t
    obtain ⟨t2, h2⟩ := ih t1
    exact ⟨t2, by simp only [next_tokens, h1, bind, Except.bind, h2]⟩

/-- At the end of the text `next_token` returns `TokenEof` and changes nothing else. -/
theorem next_token_at_end (t : Tokenizer) (h : t.string.drop t.pt = []) :
    next_token t = Except.ok { t with kind := TokenKind.TokenEof } := by
  have e : char_at t.string t.pt = '\x00' := by
    simpa using char_at_of_drop h 0
  simp only [next_token, h, skip_whitespace, e, if_true]
  rfl

/-- The whitespace loop with the line counter started `k` higher ends `k` higher. -/
theorem skip_whitespace_line_shift (cs : List Char) (pt line k : Nat) :
    skip_whitespace cs pt (line + k) =
      ((skip_whitespace cs pt line).1, (skip_whitespace cs pt line).2 + k) := by
  induction cs generalizing pt line with
  | nil => rfl
  | cons c cs ih =>
    simp only [skip_whitespace]
    split_ifs with h1 h2
    · rw [← ih]
      congr 1
      omega
    · rw [← ih]
    · rfl

/-- The `default` case of `next_token` does not read the line counter. -/
theorem next_token_default_line_shift (t : Tokenizer) (k : Nat) :
    next_token_default { t with line := t.line + k } =
      (next_token_default t).map (fun t' => { t' with line := t'.line + k }) := by
  simp only [next_token_default]
  split_ifs
  all_goals first
    | rfl
    | (cases parse_hex t.string t.start 2 <;> rfl)
    | (cases parse_hex t.string t.start 4 <;> rfl)

/-- After its whitespace loop `next_token` does not read the line counter. -/
theorem next_token_line_shift (t : Tokenizer) (k : Nat) :
    next_token { t with line := t.line + k } =
      (next_token t).map (fun t' => { t' with line := t'.line + k }) := by
  simp only [next_token, skip_whitespace_line_shift]
  split_ifs
  all_goals first
    | rfl
    | exact next_token_default_line_shift ⟨t.string, _, t.kind, _, t.end_, t.val, _⟩ k

/-- A successful bind has a successful first step. -/
theorem bind_eq_ok {α β : Type} {first : Except Error α} {next : α → Except Error β}
    {result : β} (h : first >>= next = Except.ok result) :
    ∃ v, first = Except.ok v ∧ next v = Except.ok result := by
  match first, h with
  | Except.ok v, h => exact ⟨v, rfl, h⟩
  | Except.error e, h => simp [bind, Except.bind] at h

/-- A tokenizer advances to itself. -/
theorem Advances.refl (t : Tokenizer) : Advances t t := ⟨rfl, Nat.le_refl _⟩

/-- Advancing composes. -/
theorem Advances.trans {t1 t2 t3 : Tokenizer} (h12 : Advances t1 t2) (h23 : Advances t2 t3) :
    Advances t1 t3 :=
  ⟨h23.1.trans h12.1, Nat.le_trans h12.2 h23.2⟩

/-- The whitespace loop does not move the cursor backwards. -/
theorem skip_whitespace_ge (cs : List Char) (pt line : Nat) :
    pt ≤ (skip_whitespace cs pt line).1 := by
  induction cs generalizing pt line with
  | nil => exact Nat.le_refl _
  | cons c cs ih =>
    simp only [skip_whitespace]
    split_ifs
    all_goals first
      | exact Nat.le_refl _
      | exact Nat.le_trans (Nat.le_succ _) (ih _ _)

/-- The `isalnum` loop does not move the cursor backwards. -/
theorem scan_alnum_ge (cs : List Char) (pt : Nat) : pt ≤ scan_alnum cs pt := by
  induction cs generalizing pt with
  | nil => exact Nat.le_refl _
  | cons c cs ih =>
    simp only [scan_alnum]
    split_ifs
    · exact Nat.le_trans (Nat.le_succ _) (ih _)
    · exact Nat.le_refl _

/-- A character other than NUL is read inside the text. -/
theorem lt_length_of_char_at_ne_nul {s : List Char} {p : Nat} (h : char_at s p ≠ '\x00') :
    p < s.length := by
  by_contra hlt
  apply h
  have hn : s.get? p = none := List.get?_eq_none.mpr (Nat.le_of_not_lt hlt)
  simp only [char_at, List.getD, hn]
  rfl

/-- The `default` case of `next_token`, entered with `start` at the cursor: the text is
kept, the cursor does not move back, and the kind `TokenInstr` is only left by a run of
three characters or more, or by a run of two or more characters that keeps a kind which
was `TokenInstr` before. -/
theorem next_token_default_progress (t t' : Tokenizer) (hstart : t.start = t.pt)
    (h : next_token_default t = Except.ok t') :
    t'.string = t.string ∧ t.pt ≤ t'.pt ∧
      (t'.kind = TokenKind.TokenInstr →
        t.pt + 3 ≤ t'.pt ∨ (t.kind = TokenKind.TokenInstr ∧ t.pt + 2 ≤ t'.pt)) := by
  have hge := scan_alnum_ge (t.string.drop t.pt) t.pt
  simp only [next_token_default, hstart] at h
  split_ifs at h with h1 h2 h3 h4 h5 h6 h7
  all_goals first
    | (cases hp : parse_hex t.string t.pt 2 with
        | error e => rw [hp] at h; simp [bind, Except.bind] at h
        | ok v =>
          rw [hp] at h
          simp only [bind, Except.bind, pure, Except.pure, Except.ok.injEq] at h
          subst h
          refine ⟨rfl, hge, fun hk => ?_⟩
          simp at hk)
    | (cases hp : parse_hex t.string t.pt 4 with
        | error e => rw [hp] at h; simp [bind, Except.bind] at h
        | ok v =>
          rw [hp] at h
          simp only [bind, Except.bind, pure, Except.pure, Except.ok.injEq] at h
          subst h
          refine ⟨rfl, Nat.le_trans hge (Nat.le_add_right _ _), fun hk => ?_⟩
          simp at hk)
    | (simp only [bind, Except.bind, pure, Except.pure, Except.ok.injEq] at h
       subst h
       refine ⟨rfl, hge, fun hk => ?_⟩
       first
         | (simp at hk; done)
         | (left; show t.pt + 3 ≤ scan_alnum (t.string.drop t.pt) t.pt; omega)
         | (right; exact ⟨hk, by show t.pt + 2 ≤ scan_alnum (t.string.drop t.pt) t.pt; omega⟩))


/-- One call of `next_token`: the text is kept and the cursor does not move back; a kind
other than `TokenEof` is only left when the cursor was inside the text; the kind
`TokenInstr` is only left after the cursor has moved by three characters or more, or by
two or more when the kind was `TokenInstr` before the call. -/
theorem next_token_progress (t t' : Tokenizer) (h : next_token t = Except.ok t') :
    t'.string = t.string ∧ t.pt ≤ t'.pt ∧
      (t'.kind ≠ TokenKind.TokenEof → t.pt < t.string.length) ∧
      (t'.kind = TokenKind.TokenInstr →
        t.pt + 3 ≤ t'.pt ∨ (t.kind = TokenKind.TokenInstr ∧ t.pt + 2 ≤ t'.pt)) := by
  have hge := skip_whitespace_ge (t.string.drop t.pt) t.pt t.line
  simp only [next_token] at h
  split_ifs at h with h0 h1 h2 h3 h4 h5
  · simp only [pure, Except.pure, Except.ok.injEq] at h
    subst h
    exact ⟨rfl, hge, fun hk => absurd rfl hk, fun hk => by simp at hk⟩
  · simp only [pure, Except.pure, Except.ok.injEq] at h
    subst h
    have hlt := lt_length_of_char_at_ne_nul h0
    exact ⟨rfl, Nat.le_succ_of_le hge, fun _ => Nat.lt_of_le_of_lt hge hlt,
      fun hk => by simp at hk⟩
  · simp only [pure, Except.pure, Except.ok.injEq] at h
    subst h
    have hlt := lt_length_of_char_at_ne_nul h0
    exact ⟨rfl, Nat.le_succ_of_le hge, fun _ => Nat.lt_of_le_of_lt hge hlt,
      fun hk => by simp at hk⟩
  · simp only [pure, Except.pure, Except.ok.injEq] at h
    subst h
    have hlt := lt_length_of_char_at_ne_nul h0
    exact ⟨rfl, Nat.le_succ_of_le hge, fun _ => Nat.lt_of_le_of_lt hge hlt,
      fun hk => by simp at hk⟩
  · simp only [pure, Except.pure, Except.ok.injEq] at h
    subst h
    have hlt := lt_length_of_char_at_ne_nul h0
    exact ⟨rfl, Nat.le_succ_of_le hge, fun _ => Nat.lt_of_le_of_lt hge hlt,
      fun hk => by simp at hk⟩
  · simp only [pure, Except.pure, Except.ok.injEq] at h
    subst h
    have hlt := lt_length_of_char_at_ne_nul h0
    exact ⟨rfl, Nat.le_succ_of_le hge, fun _ => Nat.lt_of_le_of_lt hge hlt,
      fun hk => by simp at hk⟩
  · have hlt := lt_length_of_char_at_ne_nul h0
    obtain ⟨d1, d2, d3⟩ := next_token_default_progress _ t' rfl h
    refine ⟨d1, Nat.le_trans hge d2, fun _ => Nat.lt_of_le_of_lt hge hlt, fun hk => ?_⟩
    rcases d3 hk with d | ⟨dk, d⟩
    · exact Or.inl (Nat.le_trans (Nat.add_le_add_right hge 3) d)
    · exact Or.inr ⟨dk, Nat.le_trans (Nat.add_le_add_right hge 2) d⟩

/-- The function `next_token` keeps the text and does not move the cursor back. -/
theorem next_token_advances {t t' : Tokenizer} (h : next_token t = Except.ok t') :
    Advances t t' :=
  ⟨(next_token_progress t t' h).1, (next_token_progress t t' h).2.1⟩

/-- A successful `expect_token` advances and leaves the expected kind. -/
theorem expect_token_advances {kind : TokenKind} {t t' : Tokenizer}
    (h : expect_token kind t = Except.ok t') : Advances t t' ∧ t'.kind = kind := by
  obtain ⟨t1, h1, h⟩ := bind_eq_ok h
  split_ifs at h with hk
  simp only [pure, Except.pure, Except.ok.injEq] at h
  subst h
  exact ⟨next_token_advances h1, not_not.mp hk⟩

/-- The function `match_token` advances. -/
theorem match_token_advances {kind : TokenKind} {t t' : Tokenizer} {m : Bool}
    (h : match_token kind t = Except.ok (m, t')) : Advances t t' := by
  obtain ⟨t1, h1, h⟩ := bind_eq_ok h
  simp only [pure, Except.pure, Except.ok.injEq, Prod.mk.injEq] at h
  obtain ⟨_, rfl⟩ := h
  exact next_token_advances h1

/-- The function `match_byte` advances. -/
theorem match_byte_advances {t t' : Tokenizer} {m : Bool}
    (h : match_byte t = Except.ok (m, t')) : Advances t t' := by
  obtain ⟨t1, h1, h⟩ := bind_eq_ok h
  split_ifs at h
  · obtain ⟨t2, h2, h⟩ := bind_eq_ok h
    have a12 := (next_token_advances h1).trans (next_token_advances h2)
    split_ifs at h <;>
      (simp only [pure, Except.pure, Except.ok.injEq, Prod.mk.injEq] at h
       obtain ⟨_, rfl⟩ := h
       exact a12)
  · simp only [pure, Except.pure, Except.ok.injEq, Prod.mk.injEq] at h
    obtain ⟨_, rfl⟩ := h
    exact next_token_advances h1

/-- A successful `expect_byte` advances. -/
theorem expect_byte_advances {t t' : Tokenizer}
    (h : expect_byte t = Except.ok t') : Advances t t' := by
  obtain ⟨t1, h1, h⟩ := bind_eq_ok h
  split_ifs at h
  · obtain ⟨t2, h2, h⟩ := bind_eq_ok h
    split_ifs at h
    simp only [pure, Except.pure, Except.ok.injEq] at h
    subst h
    exact (next_token_advances h1).trans (next_token_advances h2)

/-- A successful `expect_word` advances. -/
theorem expect_word_advances {t t' : Tokenizer}
    (h : expect_word t = Except.ok t') : Advances t t' := by
  obtain ⟨t1, h1, h⟩ := bind_eq_ok h
  split_ifs at h
  · obtain ⟨t2, h2, h⟩ := bind_eq_ok h
    split_ifs at h
    simp only [pure, Except.pure, Except.ok.injEq] at h
    subst h
    exact (next_token_advances h1).trans (next_token_advances h2)


/-- The operand grammar of `parse_lda` keeps the text and does not move the cursor back. -/
theorem parse_lda_advances {t t' : Tokenizer} {i : Instr}
    (h : parse_lda t = Except.ok (i, t')) : Advances t t' := by
  unfold parse_lda at h
  obtain ⟨⟨m1, t1⟩, h1, h⟩ := bind_eq_ok h
  have a1 := match_token_advances h1
  dsimp only at h
  split_ifs at h
  · obtain ⟨⟨m2, t2⟩, h2, h⟩ := bind_eq_ok h
    have a2 := a1.trans (match_byte_advances h2)
    dsimp only at h
    split_ifs at h
    simp only [pure, Except.pure, Except.ok.injEq, Prod.mk.injEq] at h
    obtain ⟨_, rfl⟩ := h
    exact a2
  · obtain ⟨⟨m2, t2⟩, h2, h⟩ := bind_eq_ok h
    have a2 := a1.trans (match_token_advances h2)
    dsimp only at h
    split_ifs at h
    · obtain ⟨t3, h3, h⟩ := bind_eq_ok h
      have a3 := a2.trans (expect_byte_advances h3)
      obtain ⟨⟨m4, t4⟩, h4, h⟩ := bind_eq_ok h
      have a4 := a3.trans (match_token_advances h4)
      dsimp only at h
      split_ifs at h
      · obtain ⟨t5, h5, h⟩ := bind_eq_ok h
        have a5 := a4.trans (expect_token_advances h5).1
        obtain ⟨t6, h6, h⟩ := bind_eq_ok h
        have a6 := a5.trans (expect_token_advances h6).1
        split_ifs at h
        simp only [pure, Except.pure, Except.ok.injEq, Prod.mk.injEq] at h
        obtain ⟨_, rfl⟩ := h
        exact a6
      · obtain ⟨⟨m5, t5⟩, h5, h⟩ := bind_eq_ok h
        have a5 := a4.trans (match_token_advances h5)
        dsimp only at h
        split_ifs at h
        · obtain ⟨t6, h6, h⟩ := bind_eq_ok h
          have a6 := a5.trans (expect_token_advances h6).1
          split_ifs at h
          obtain ⟨t7, h7, h⟩ := bind_eq_ok h
          have a7 := a6.trans (expect_token_advances h7).1
          simp only [pure, Except.pure, Except.ok.injEq, Prod.mk.injEq] at h
          obtain ⟨_, rfl⟩ := h
          exact a7
        · simp only [pure, Except.pure, Except.ok.injEq, Prod.mk.injEq] at h
          obtain ⟨_, rfl⟩ := h
          exact a5
    · obtain ⟨⟨m3, t3⟩, h3, h⟩ := bind_eq_ok h
      have a3 := a2.trans (match_byte_advances h3)
      dsimp only at h
      split_ifs at h
      · obtain ⟨⟨m4, t4⟩, h4, h⟩ := bind_eq_ok h
        have a4 := a3.trans (match_token_advances h4)
        dsimp only at h
        split_ifs at h
        · obtain ⟨t5, h5, h⟩ := bind_eq_ok h
          have a5 := a4.trans (expect_token_advances h5).1
          split_ifs at h
          simp only [pure, Except.pure, Except.ok.injEq, Prod.mk.injEq] at h
          obtain ⟨_, rfl⟩ := h
          exact a5
        · simp only [pure, Except.pure, Except.ok.injEq, Prod.mk.injEq] at h
          obtain ⟨_, rfl⟩ := h
          exact a4
      · obtain ⟨t4, h4, h⟩ := bind_eq_ok h
        have a4 := a3.trans (expect_word_advances h4)
        obtain ⟨⟨m5, t5⟩, h5, h⟩ := bind_eq_ok h
        have a5 := a4.trans (match_token_advances h5)
        dsimp only at h
        split_ifs at h
        · obtain ⟨t6, h6, h⟩ := bind_eq_ok h
          have a6 := a5.trans (expect_token_advances h6).1
          split_ifs at h
          all_goals
            simp only [pure, Except.pure, Except.ok.injEq, Prod.mk.injEq] at h
            obtain ⟨_, rfl⟩ := h
            exact a6
        · simp only [pure, Except.pure, Except.ok.injEq, Prod.mk.injEq] at h
          obtain ⟨_, rfl⟩ := h
          exact a5


/-- One iteration of the parse loop that neither breaks nor fails: the text is kept, the
cursor was inside the text and has moved forward by three characters or more. -/
theorem parse_loop_iteration {t tA t' : Tokenizer} {i : Instr}
    (hA : match_token TokenKind.TokenEof t = Except.ok (false, tA))
    (hB : parse_instruction tA = Except.ok (i, t')) :
    t'.string = t.string ∧ t.pt + 3 ≤ t'.pt ∧ t.pt < t.string.length := by
  obtain ⟨t1, h1, hA⟩ := bind_eq_ok hA
  simp only [pure, Except.pure, Except.ok.injEq, Prod.mk.injEq, decide_eq_false_iff_not] at hA
  obtain ⟨hk, rfl⟩ := hA
  obtain ⟨pA1, pA2, pA3, pA4⟩ := next_token_progress t t1 h1
  unfold parse_instruction at hB
  obtain ⟨tB, hB1, hB⟩ := bind_eq_ok hB
  obtain ⟨t2, h2, hB1⟩ := bind_eq_ok hB1
  split_ifs at hB1 with hkind
  simp only [pure, Except.pure, Except.ok.injEq] at hB1
  subst hB1
  obtain ⟨pB1, pB2, _, pB4⟩ := next_token_progress t1 t2 h2
  have hadv : Advances t2 t' := by
    split_ifs at hB
    · exact parse_lda_advances hB
    · simp only [pure, Except.pure, Except.ok.injEq, Prod.mk.injEq] at hB
      obtain ⟨_, rfl⟩ := hB
      exact Advances.refl _
  have h3 : t.pt + 3 ≤ t2.pt := by
    rcases pB4 (not_not.mp hkind) with d | ⟨dk, d⟩
    · omega
    · rcases pA4 dk with e | ⟨_, e⟩ <;> omega
  refine ⟨?_, Nat.le_trans h3 hadv.2, pA3 hk⟩
  rw [hadv.1, pB1, pA1]

/-- The parse loop returns within `fuel` iterations once `fuel` exceeds the number of
characters from the cursor to the end of the text. -/
theorem parse_loop_returns (fuel : Nat) (t : Tokenizer) (instructions : List Instr)
    (hfuel : t.string.length - t.pt < fuel) :
    ∃ r, parse_loop fuel t instructions = some r := by
  induction fuel generalizing t instructions with
  | zero => omega
  | succ fuel ih =>
    rw [parse_loop]
    cases hA : match_token TokenKind.TokenEof t with
    | error e => exact ⟨Except.error e, rfl⟩
    | ok r =>
      obtain ⟨m, tA⟩ := r
      cases m with
      | true => exact ⟨Except.ok instructions, rfl⟩
      | false =>
        cases hB : parse_instruction tA with
        | error e =>
          refine ⟨Except.error e, ?_⟩
          simp only [hB]
        | ok r =>
          obtain ⟨i, t'⟩ := r
          obtain ⟨hs, hp, hl⟩ := parse_loop_iteration hA hB
          have hlt : t'.string.length - t'.pt < fuel := by
            rw [hs]
            omega
          simp only [hB]
          exact ih t' _ hlt

/-! ## The claims -/

/-- Claim C1, evaluated on the code.  On `LDA $3F` and on `LDA $003F` the operand grammar of
`parse_lda` ends in the diagnostic "expected word; got EOF" on line 1: `match_token`
consumes the token it inspects, so the `$` is used up by the test for `#` and the literal
by the test for `(`, and neither the zero-page nor the absolute branch sees its operand. -/
theorem lda_literal_width_rejected :
    parse_instruction (init_tokenizer "LDA $3F".toList) =
        Except.error (Error.expected_word 1 TokenKind.TokenEof) ∧
      parse_instruction (init_tokenizer "LDA $003F".toList) =
        Except.error (Error.expected_word 1 TokenKind.TokenEof) := by
  decide

/-- Claim C2, evaluated on the code.  On `LDA ($44),Y` and on `LDA ($44,X)` the operand
grammar ends in the diagnostic "expected word": the `(` is consumed by the test for `#`, so
the indirect branch is not entered, and the token after the byte (`)` or `,`) is what
`expect_word` finds. -/
theorem lda_indirect_rejected :
    parse_instruction (init_tokenizer "LDA ($44),Y".toList) =
        Except.error (Error.expected_word 1 TokenKind.TokenRParen) ∧
      parse_instruction (init_tokenizer "LDA ($44,X)".toList) =
        Except.error (Error.expected_word 1 TokenKind.TokenComma) := by
  decide

set_option maxRecDepth 100000 in
/-- Claim C3.  For all hex digits `c1 c0` (either letter case), `parse_instruction` on a
freshly initialised tokenizer over `LDA #$c1c0` returns, without error, the instruction
with kind LDA, mode Immediate and `op1 = 16 * c1 + c0`, a byte value. -/
theorem parse_instruction_lda_immediate (c1 c0 : Char) (h1 : is_hex c1 = true)
    (h0 : is_hex c0 = true) :
    (parse_instruction (init_tokenizer ("LDA #$".toList ++ [c1, c0]))).map Prod.fst =
        Except.ok
          { kind := InstrKind.InstrLda, mode := some Mode.ModeImm,
            op1 := some (16 * hex_digit_value c1 + hex_digit_value c0),
            op2 := none, reg := none } ∧
      16 * hex_digit_value c1 + hex_digit_value c0 < 256 := by
  have key : ∀ d1 ∈ hex_chars, ∀ d0 ∈ hex_chars,
      (parse_instruction (init_tokenizer ("LDA #$".toList ++ [d1, d0]))).map Prod.fst =
          Except.ok
            { kind := InstrKind.InstrLda, mode := some Mode.ModeImm,
              op1 := some (16 * hex_digit_value d1 + hex_digit_value d0),
              op2 := none, reg := none } ∧
        16 * hex_digit_value d1 + hex_digit_value d0 < 256 := by
    decide
  exact key c1 (mem_hex_chars h1) c0 (mem_hex_chars h0)

/-- Witness for claim C3: `LDA #$10` gives Immediate with operand 0x10. -/
theorem parse_instruction_lda_immediate_witness :
    (parse_instruction (init_tokenizer "LDA #$10".toList)).map Prod.fst =
        Except.ok
          { kind := InstrKind.InstrLda, mode := some Mode.ModeImm, op1 := some 0x10,
            op2 := none, reg := none } ∧
      16 * hex_digit_value '1' + hex_digit_value '0' < 256 :=
  parse_instruction_lda_immediate '1' '0' (by decide) (by decide)

/-- Claim C4, evaluated on the code.  On the source `LDA #$01\nLDA $0200\nLDA $44,X\n` the
parse loop of `process_file` pushes no instruction: the loop's own end-of-input test
`match_token(TokenEof)` consumes the first mnemonic, and `parse_instruction` then stops
with "expected token kind Instruction, found kind Immediate" on line 1. -/
theorem process_file_three_statements_fails :
    process_file "LDA #$01\nLDA $0200\nLDA $44,X\n".toList =
      some (Except.error
        (Error.expected_token 1 TokenKind.TokenInstr TokenKind.TokenHash)) := by
  decide

/-- Claim C5, evaluated on the code.  With the wrong register in an indirect operand,
`LDA ($44),X` and `LDA ($44,Y)`, the run does stop, but with the diagnostic
"expected word; got Right Parenthesis" (respectively "got Comma"), not with the
invalid-register diagnostic: the register token is never reached. -/
theorem lda_indirect_wrong_register_error :
    parse_instruction (init_tokenizer "LDA ($44),X".toList) =
        Except.error (Error.expected_word 1 TokenKind.TokenRParen) ∧
      parse_instruction (init_tokenizer "LDA ($44,Y)".toList) =
        Except.error (Error.expected_word 1 TokenKind.TokenComma) := by
  decide

/-- Claim C6, evaluated on the code.  With the malformed literal of `LDA $G5` on line 1
followed by a newline the diagnostic carries line 2, with a further line `LDA #$10` it
carries line 2 as well, and followed by `$12` on the same line no error is raised at all:
a zero-page instruction with operand 0x12 is returned. -/
theorem lda_malformed_literal_line :
    parse_instruction (init_tokenizer "LDA $G5\n".toList) =
        Except.error (Error.expected_word 2 TokenKind.TokenEof) ∧
      parse_instruction (init_tokenizer "LDA $G5\nLDA #$10".toList) =
        Except.error (Error.expected_word 2 TokenKind.TokenHash) ∧
      (parse_instruction (init_tokenizer "LDA $G5 $12".toList)).map Prod.fst =
        Except.ok
          { kind := InstrKind.InstrLda, mode := some Mode.ModeZp, op1 := some 0x12,
            op2 := none, reg := none } := by
  decide

/-- Claim C7, evaluated on the code.  `parse_lda` returns normally with a mode that no
statement has assigned: after `X ( $44`, when the next token is neither `)` nor `,` (here
end of input), and after `, , , $0200`, where the word literal is not followed by a comma
(no statement of `parse_lda` assigns `ModeAbs`). -/
theorem parse_lda_returns_unassigned_mode :
    (parse_lda (init_tokenizer "X($44".toList)).map Prod.fst =
        Except.ok
          { kind := InstrKind.InstrLda, mode := none, op1 := some 0x44, op2 := none,
            reg := none } ∧
      (parse_lda (init_tokenizer ",,,$0200".toList)).map Prod.fst =
        Except.ok
          { kind := InstrKind.InstrLda, mode := none, op1 := some 0x0200, op2 := none,
            reg := none } := by
  decide

/-- Claim C8, as stated, fails on the code.  The instruction that `LDA #$10` resolves to
(LDA, Immediate, operand 0x10) passes through the output loop of `process_file` without a
byte being written, so the bytes written for it are not between 1 and 3: the loop's only
statement, the call of `emit_instruction`, is a comment. -/
theorem emit_loop_writes_nothing :
    (parse_instruction (init_tokenizer "LDA #$10".toList)).map
        (fun r => (r.1, emit_loop [] [r.1],
          decide (1 ≤ (emit_loop [] [r.1]).length ∧ (emit_loop [] [r.1]).length ≤ 3))) =
      Except.ok
        ({ kind := InstrKind.InstrLda, mode := some Mode.ModeImm, op1 := some 0x10,
           op2 := none, reg := none }, [], false) := by
  decide

/-- Claim C8, amended.  The code has no encoder: whatever has been written so far and
whatever the resolved instructions are (mnemonic, mode, operand), the output loop of
`process_file` visits them all and adds no byte to the output, neither an opcode nor an
operand byte. -/
theorem emit_loop_emits_nothing (out : List Nat) (instructions : List Instr) :
    emit_loop out instructions = out := by
  induction instructions with
  | nil => rfl
  | cons instr rest ih => exact ih

/-- Claim C9.  In every tokenizer state whose text from the cursor is whitespace `ws`
followed by a maximal alphanumeric run `digits` of hex digits: when the run is exactly two
digits `c1 c0`, `next_token` returns with kind `TokenByte` and `val = 16 * c1 + c0 < 256`;
when it is exactly four digits `c3 c2 c1 c0`, `next_token` returns with kind `TokenWord`
and `val` their base-16 value, which is below 65536 and is the unreduced result of
`parse_hex`. -/
theorem next_token_literal_value (t : Tokenizer) (ws digits rest : List Char)
    (hsrc : t.string.drop t.pt = ws ++ (digits ++ rest))
    (hws : ∀ c ∈ ws, is_space c = true)
    (hhex : ∀ c ∈ digits, is_hex c = true)
    (hrest : ∀ c ∈ rest.head?, isalnum c = false) :
    (∀ c1 c0, digits = [c1, c0] →
      ∃ t', next_token t = Except.ok t' ∧ t'.kind = TokenKind.TokenByte ∧
        t'.val = 16 * hex_digit_value c1 + hex_digit_value c0 ∧ t'.val < 256) ∧
    (∀ c3 c2 c1 c0, digits = [c3, c2, c1, c0] →
      ∃ t', next_token t = Except.ok t' ∧ t'.kind = TokenKind.TokenWord ∧
        t'.val = 4096 * hex_digit_value c3 + 256 * hex_digit_value c2 +
          16 * hex_digit_value c1 + hex_digit_value c0 ∧
        t'.val < 65536 ∧ parse_hex t.string t'.start 4 = Except.ok t'.val) := by
  constructor
  · intro c1 c0 hd
    subst hd
    have h1 : is_hex c1 = true := hhex c1 (by simp)
    have h0 : is_hex c0 = true := hhex c0 (by simp)
    have v1 := (hex_facts h1).value_lt
    have v0 := (hex_facts h0).value_lt
    refine ⟨_, next_token_byte t ws rest c1 c0 hsrc hws h1 h0 hrest, rfl, rfl, ?_⟩
    show 16 * hex_digit_value c1 + hex_digit_value c0 < 256
    omega
  · intro c3 c2 c1 c0 hd
    subst hd
    have h3 : is_hex c3 = true := hhex c3 (by simp)
    have h2 : is_hex c2 = true := hhex c2 (by simp)
    have h1 : is_hex c1 = true := hhex c1 (by simp)
    have h0 : is_hex c0 = true := hhex c0 (by simp)
    have v3 := (hex_facts h3).value_lt
    have v2 := (hex_facts h2).value_lt
    have v1 := (hex_facts h1).value_lt
    have v0 := (hex_facts h0).value_lt
    have hdrop := drop_past_whitespace hsrc
    refine ⟨_, next_token_word t ws rest c3 c2 c1 c0 hsrc hws h3 h2 h1 h0 hrest, rfl, rfl,
      ?_, ?_⟩
    · show 4096 * hex_digit_value c3 + 256 * hex_digit_value c2 +
        16 * hex_digit_value c1 + hex_digit_value c0 < 65536
      omega
    · exact parse_hex_four t.string (t.pt + ws.length) c3 c2 c1 c0
        (char_at_of_drop hdrop 0) (char_at_of_drop hdrop 1) (char_at_of_drop hdrop 2)
        (char_at_of_drop hdrop 3) h3 h2 h1 h0

/-- Witness for claim C9: with the cursor after `LDA`, the run `3f` of `LDA 3f,X` is a byte
with value 0x3F, and the run `003F` of `LDA 003F` is a word with value 0x003F. -/
theorem next_token_literal_value_witness :
    (∃ t', next_token { init_tokenizer "LDA 3f,X".toList with pt := 3 } = Except.ok t' ∧
        t'.kind = TokenKind.TokenByte ∧ t'.val = 0x3F ∧ t'.val < 256) ∧
      (∃ t', next_token { init_tokenizer "LDA 003F".toList with pt := 3 } = Except.ok t' ∧
        t'.kind = TokenKind.TokenWord ∧ t'.val = 0x003F ∧ t'.val < 65536 ∧
        parse_hex "LDA 003F".toList t'.start 4 = Except.ok t'.val) :=
  ⟨(next_token_literal_value { init_tokenizer "LDA 3f,X".toList with pt := 3 } [' ']
      ['3', 'f'] [',', 'X'] (by decide) (by decide) (by decide) (by decide)).1
      '3' 'f' rfl,
    (next_token_literal_value { init_tokenizer "LDA 003F".toList with pt := 3 } [' ']
      ['0', '0', '3', 'F'] [] (by decide) (by decide) (by decide) (by decide)).2
      '0' '0' '3' 'F' rfl⟩

/-- Claim C10, evaluated on the code.  After the token `$` (kind `TokenDollar`), the
two-character run `G5` and the four-character run `12G4`, neither made only of hex digits,
leave the kind at `TokenDollar` and the value at 0: the `len == 2` and `len == 4` branches
of `next_token` assign nothing when the hex test fails. -/
theorem next_token_non_hex_keeps_kind :
    (next_token (init_tokenizer "$G5".toList) >>= next_token).map
        (fun t => (t.kind, t.val, t.pt)) = Except.ok (TokenKind.TokenDollar, 0, 3) ∧
      (next_token (init_tokenizer "$12G4".toList) >>= next_token).map
        (fun t => (t.kind, t.val, t.pt)) = Except.ok (TokenKind.TokenDollar, 0, 5) := by
  decide

/-- Claim C11.  In every tokenizer state, after any whitespace `ws`: at `#`, `$`, `(`, `)`
or `,` `next_token` returns Hash, Dollar, LeftParen, RightParen or Comma; at a maximal
alphanumeric run of length 1 it returns `TokenReg` exactly when the character is one of
`A a X x Y y` and `TokenUnknown` otherwise; at every maximal alphanumeric run of length 3
it returns `TokenInstr`, whatever the characters; at every maximal alphanumeric run of
length 5 or more it returns `TokenUnknown`. -/
theorem next_token_classification (t : Tokenizer) (ws rest : List Char)
    (hws : ∀ c ∈ ws, is_space c = true) :
    (∀ c, t.string.drop t.pt = ws ++ c :: rest →
      (c = '#' → (next_token t).map Tokenizer.kind = Except.ok TokenKind.TokenHash) ∧
      (c = '$' → (next_token t).map Tokenizer.kind = Except.ok TokenKind.TokenDollar) ∧
      (c = '(' → (next_token t).map Tokenizer.kind = Except.ok TokenKind.TokenLParen) ∧
      (c = ')' → (next_token t).map Tokenizer.kind = Except.ok TokenKind.TokenRParen) ∧
      (c = ',' → (next_token t).map Tokenizer.kind = Except.ok TokenKind.TokenComma)) ∧
    (∀ run, t.string.drop t.pt = ws ++ (run ++ rest) →
      (∀ c ∈ run, isalnum c = true) → (∀ c ∈ rest.head?, isalnum c = false) →
      (∀ c, run = [c] →
        ((c = 'A' ∨ c = 'a' ∨ c = 'X' ∨ c = 'x' ∨ c = 'Y' ∨ c = 'y') →
          (next_token t).map Tokenizer.kind = Except.ok TokenKind.TokenReg) ∧
        (¬(c = 'A' ∨ c = 'a' ∨ c = 'X' ∨ c = 'x' ∨ c = 'Y' ∨ c = 'y') →
          (next_token t).map Tokenizer.kind = Except.ok TokenKind.TokenUnknown)) ∧
      (run.length = 3 →
        (next_token t).map Tokenizer.kind = Except.ok TokenKind.TokenInstr) ∧
      (5 ≤ run.length →
        (next_token t).map Tokenizer.kind = Except.ok TokenKind.TokenUnknown)) := by
  constructor
  · intro c hsrc
    have hp := next_token_punct
      { t with pt := t.pt + ws.length, line := t.line + ws.count '\n' } c rest
      (drop_past_whitespace hsrc)
    rw [next_token_skip_whitespace t ws _ hsrc hws]
    obtain ⟨p1, p2, p3, p4, p5⟩ := hp
    exact ⟨fun h => by rw [p1 h]; rfl, fun h => by rw [p2 h]; rfl, fun h => by rw [p3 h]; rfl,
      fun h => by rw [p4 h]; rfl, fun h => by rw [p5 h]; rfl⟩
  · intro run hsrc hrun hrest
    have hk := next_token_run_kind
      { t with pt := t.pt + ws.length, line := t.line + ws.count '\n' } run rest
      (drop_past_whitespace hsrc) hrun hrest
    rw [next_token_skip_whitespace t ws _ hsrc hws]
    obtain ⟨k1, k3, k5⟩ := hk
    refine ⟨fun c hc => ⟨fun hreg => ?_, fun hreg => ?_⟩, fun h => by rw [k3 h]; rfl,
      fun h => by rw [k5 h]; rfl⟩
    · rw [k1 c hc]
      simp only [Except.map, if_pos hreg]
    · rw [k1 c hc]
      simp only [Except.map, if_neg hreg]

/-- Witness for claim C11: on the text ` #` the token is Hash, and with the cursor after
`LDA` in `LDA x`, `LDA 123` and `LDA 12345` the runs `x`, `123` and `12345` are
RegisterName, Mnemonic and Invalid. -/
theorem next_token_classification_witness :
    (next_token (init_tokenizer " #".toList)).map Tokenizer.kind =
        Except.ok TokenKind.TokenHash ∧
      (next_token { init_tokenizer "LDA x".toList with pt := 3 }).map Tokenizer.kind =
        Except.ok TokenKind.TokenReg ∧
      (next_token { init_tokenizer "LDA 123".toList with pt := 3 }).map Tokenizer.kind =
        Except.ok TokenKind.TokenInstr ∧
      (next_token { init_tokenizer "LDA 12345".toList with pt := 3 }).map Tokenizer.kind =
        Except.ok TokenKind.TokenUnknown :=
  ⟨((next_token_classification (init_tokenizer " #".toList) [' '] []
      (by decide)).1 '#' (by decide)).1 rfl,
    ((((next_token_classification { init_tokenizer "LDA x".toList with pt := 3 } [' '] []
      (by decide)).2 ['x'] (by decide) (by decide) (by decide)).1 'x' rfl).1 (by decide)),
    ((next_token_classification { init_tokenizer "LDA 123".toList with pt := 3 } [' '] []
      (by decide)).2 ['1', '2', '3'] (by decide) (by decide) (by decide)).2.1 rfl,
    ((next_token_classification { init_tokenizer "LDA 12345".toList with pt := 3 } [' '] []
      (by decide)).2 ['1', '2', '3', '4', '5'] (by decide) (by decide) (by decide)).2.2
      (by decide)⟩

/-- Claim C12.  For every string of `n ≤ 8` hex digits `ds` (read at any offset `str` of
any text `s`), `parse_hex(s + str, n)` returns the left fold `result = 16*result + digit`
from 0; this value is the sum of `digit_i * 16^(n-1-i)`; and `parse_hex` returns it also
for the upper-case and for the lower-case spelling of the digits. -/
theorem parse_hex_reference (s : List Char) (str : Nat) (ds rest : List Char)
    (hsrc : s.drop str = ds ++ rest) (hhex : ∀ c ∈ ds, is_hex c = true)
    (h8 : ds.length ≤ 8) :
    parse_hex s str ds.length = Except.ok (hex_value ds) ∧
      hex_value ds =
        ∑ i in Finset.range ds.length,
          hex_digit_value (ds.getD i '0') * 16 ^ (ds.length - 1 - i) ∧
      parse_hex (ds.map Char.toUpper) 0 ds.length = Except.ok (hex_value ds) ∧
      parse_hex (ds.map Char.toLower) 0 ds.length = Except.ok (hex_value ds) := by
  refine ⟨parse_hex_digits s str ds rest hsrc hhex h8, hex_value_eq_sum ds, ?_, ?_⟩
  · have h := parse_hex_digits (ds.map Char.toUpper) 0 (ds.map Char.toUpper) []
      (by simp)
      (by
        intro c hc
        obtain ⟨d, hd, rfl⟩ := List.mem_map.mp hc
        exact (hex_digit_case (hhex d hd)).1)
      (by simpa using h8)
    rw [List.length_map, (hex_value_map_case ds hhex).1] at h
    exact h
  · have h := parse_hex_digits (ds.map Char.toLower) 0 (ds.map Char.toLower) []
      (by simp)
      (by
        intro c hc
        obtain ⟨d, hd, rfl⟩ := List.mem_map.mp hc
        exact (hex_digit_case (hhex d hd)).2.1)
      (by simpa using h8)
    rw [List.length_map, (hex_value_map_case ds hhex).2] at h
    exact h


/-- Witness for claim C12: the two digits `1f` read at offset 1 of `$1f`, value 0x1F. -/
theorem parse_hex_reference_witness :
    (parse_hex "$1f".toList 1 ['1', 'f'].length = Except.ok (hex_value ['1', 'f']) ∧
      hex_value ['1', 'f'] =
        ∑ i in Finset.range ['1', 'f'].length,
          hex_digit_value (['1', 'f'].getD i '0') * 16 ^ (['1', 'f'].length - 1 - i) ∧
      parse_hex (['1', 'f'].map Char.toUpper) 0 ['1', 'f'].length =
        Except.ok (hex_value ['1', 'f']) ∧
      parse_hex (['1', 'f'].map Char.toLower) 0 ['1', 'f'].length =
        Except.ok (hex_value ['1', 'f'])) ∧
      hex_value ['1', 'f'] = 0x1F :=
  ⟨parse_hex_reference "$1f".toList 1 ['1', 'f'] [] (by decide) (by decide) (by decide),
    by decide⟩

/-- Claim C13.  For every two hex digits `c1 c0`, `v = parse_hex("c1c0", 2)` is defined and
below 256, and parsing the two-digit lower-case rendering of `v` and the two-digit
upper-case rendering of `v` both give `v` again; conversely, for every byte `b`,
`parse_hex` of either two-digit rendering of `b` is `b`. -/
theorem parse_hex_round_trip :
    (∀ c1 c0, is_hex c1 = true → is_hex c0 = true →
      ∃ v, parse_hex [c1, c0] 0 2 = Except.ok v ∧ v < 256 ∧
        parse_hex (hex2_lower v) 0 2 = Except.ok v ∧
        parse_hex (hex2_upper v) 0 2 = Except.ok v) ∧
    (∀ b, b < 256 →
      parse_hex (hex2_lower b) 0 2 = Except.ok b ∧
      parse_hex (hex2_upper b) 0 2 = Except.ok b) := by
  refine ⟨?_, parse_hex_hex2⟩
  intro c1 c0 h1 h0
  have v1 := (hex_facts h1).value_lt
  have v0 := (hex_facts h0).value_lt
  have hlt : 16 * hex_digit_value c1 + hex_digit_value c0 < 256 := by omega
  exact ⟨_, parse_hex_two [c1, c0] 0 c1 c0 rfl rfl h1 h0, hlt, parse_hex_hex2 _ hlt⟩

/-- Witness for claim C13: `3F` parses to 0x3F, whose renderings `3f` and `3F` parse to
0x3F again, and the byte 0xA0 is the value of `a0` and of `A0`. -/
theorem parse_hex_round_trip_witness :
    (∃ v, parse_hex ['3', 'F'] 0 2 = Except.ok v ∧ v < 256 ∧
        parse_hex (hex2_lower v) 0 2 = Except.ok v ∧
        parse_hex (hex2_upper v) 0 2 = Except.ok v) ∧
      (parse_hex (hex2_lower 0xA0) 0 2 = Except.ok 0xA0 ∧
        parse_hex (hex2_upper 0xA0) 0 2 = Except.ok 0xA0) :=
  ⟨parse_hex_round_trip.1 '3' 'F' (by decide) (by decide),
    parse_hex_round_trip.2 0xA0 (by decide)⟩

/-- Claim C16, evaluated on the code.  After one `next_token` call from `init_tokenizer`
over the text `0200` (four characters and the terminator, a buffer of five bytes) the
cursor is at offset 8, outside the buffer: a state reached from `init_tokenizer` in which
the next call of `next_token` starts by reading `*tokenizer.pt` outside the allocated text,
which is undefined and for which the program has no guard.  All reads of the first call
are inside the buffer.  (The `len == 4` branch adds 4 to a cursor that the `isalnum` loop
has already moved to the end of the literal.) -/
theorem next_token_cursor_leaves_buffer :
    cursor_in_buffer (init_tokenizer "0200".toList) = true ∧
      (next_tokens 1 (init_tokenizer "0200".toList)).map
          (fun t => (t.kind, t.pt, t.string.length + 1, cursor_in_buffer t)) =
        Except.ok (TokenKind.TokenWord, 8, 5, false) := by
  decide

/-- Claim C14, evaluated on the code.  Two `next_token` calls after `init_tokenizer` over
`$0200\n\nLDA #$10` leave the cursor at offset 9 with `line = 1`, although two newline
characters lie before the cursor; the third call returns the `A` of `LDA` as a register
token with `line = 1`, while that character is on line 3.  The `len == 4` branch adds 4
to a cursor that the `isalnum` loop has already moved past the literal, so the whitespace
loop never sees the characters that are jumped over. -/
theorem line_counter_misses_newlines :
    (next_tokens 2 (init_tokenizer "$0200\n\nLDA #$10".toList)).map
        (fun t => (t.pt, t.line, (t.string.take t.pt).count '\n')) = Except.ok (9, 1, 2) ∧
      (next_tokens 3 (init_tokenizer "$0200\n\nLDA #$10".toList)).map
        (fun t => (t.kind, t.start, t.pt, t.line, (t.string.take t.pt).count '\n')) =
        Except.ok (TokenKind.TokenReg, 9, 10, 1, 2) := by
  decide

/-- Claim C15.  In every tokenizer state in which the text from the cursor to the end of
the source is only whitespace `ws` (possibly none), `next_token` returns with kind
`TokenEof` and the cursor at the end of the source, and any number of further `next_token`
calls returns that same tokenizer state. -/
theorem next_token_end_of_input (t : Tokenizer) (pre ws : List Char)
    (hstr : t.string = pre ++ ws) (hpt : t.pt = pre.length)
    (hws : ∀ c ∈ ws, is_space c = true) :
    ∃ t', next_token t = Except.ok t' ∧ t'.kind = TokenKind.TokenEof ∧
      t'.pt = t.string.length ∧ t'.line = t.line + ws.count '\n' ∧
      ∀ n, next_tokens n t' = Except.ok t' := by
  have hsrc : t.string.drop t.pt = ws ++ [] := by
    rw [hstr, hpt, List.drop_left, List.append_nil]
  have hend : t.string.drop (t.pt + ws.length) = [] := drop_past_whitespace hsrc
  have h1 := next_token_skip_whitespace t ws [] hsrc hws
  rw [next_token_at_end { t with pt := t.pt + ws.length, line := t.line + ws.count '\n' }
    hend] at h1
  refine ⟨_, h1, rfl, ?_, rfl, ?_⟩
  · show t.pt + ws.length = t.string.length
    rw [hstr, hpt, List.length_append]
  · intro n
    induction n with
    | zero => rfl
    | succ n ih =>
      simp only [next_tokens, bind, Except.bind]
      rw [next_token_at_end
        { t with pt := t.pt + ws.length, line := t.line + ws.count '\n',
                 kind := TokenKind.TokenEof } hend]
      exact ih

/-- Witness for claim C15: with the cursor after `LDA` in `LDA \n\t`, the rest is only
whitespace. -/
theorem next_token_end_of_input_witness :
    ∃ t', next_token { init_tokenizer "LDA \n\t".toList with pt := 3 } = Except.ok t' ∧
      t'.kind = TokenKind.TokenEof ∧ t'.pt = "LDA \n\t".toList.length ∧
      t'.line = 1 + [' ', '\n', '\t'].count '\n' ∧
      ∀ n, next_tokens n t' = Except.ok t' :=
  next_token_end_of_input { init_tokenizer "LDA \n\t".toList with pt := 3 }
    ['L', 'D', 'A'] [' ', '\n', '\t'] (by decide) (by decide) (by decide)

/-- Claim C17.  For every text `r`, every whitespace string `w` and every tokenizer state
whose text from the cursor is `w ++ r`: `next_token` from the start of `w` and `next_token`
from the start of `r` (the same state with the cursor moved over `w`) both return, and the
two resulting states are equal in every field (kind, value, token start and end, cursor)
except the line counter, which is higher by the number of newlines in `w`. -/
theorem next_token_whitespace_insensitive (t : Tokenizer) (w r : List Char)
    (hsrc : t.string.drop t.pt = w ++ r) (hw : ∀ c ∈ w, is_space c = true) :
    ∃ t1 t2, next_token t = Except.ok t1 ∧
      next_token { t with pt := t.pt + w.length } = Except.ok t2 ∧
      t1 = { t2 with line := t2.line + w.count '\n' } ∧
      t1.kind = t2.kind ∧ t1.val = t2.val ∧ t1.start = t2.start ∧ t1.end_ = t2.end_ ∧
      t1.pt = t2.pt ∧ t1.string = t2.string ∧ t1.line = t2.line + w.count '\n' := by
  obtain ⟨t2, h2⟩ := next_token_ok { t with pt := t.pt + w.length }
  have h1 : next_token t = Except.ok { t2 with line := t2.line + w.count '\n' } := by
    rw [next_token_skip_whitespace t w r hsrc hw]
    have hs := next_token_line_shift { t with pt := t.pt + w.length } (w.count '\n')
    rw [h2] at hs
    exact hs
  exact ⟨_, t2, h1, h2, rfl, rfl, rfl, rfl, rfl, rfl, rfl, rfl⟩

/-- Witness for claim C17: `\n \t` before `LDA #$10`. -/
theorem next_token_whitespace_insensitive_witness :
    ∃ t1 t2, next_token (init_tokenizer "\n \tLDA #$10".toList) = Except.ok t1 ∧
      next_token { init_tokenizer "\n \tLDA #$10".toList with pt := 0 + 3 } = Except.ok t2 ∧
      t1 = { t2 with line := t2.line + ['\n', ' ', '\t'].count '\n' } ∧
      t1.kind = t2.kind ∧ t1.val = t2.val ∧ t1.start = t2.start ∧ t1.end_ = t2.end_ ∧
      t1.pt = t2.pt ∧ t1.string = t2.string ∧
      t1.line = t2.line + ['\n', ' ', '\t'].count '\n' :=
  next_token_whitespace_insensitive (init_tokenizer "\n \tLDA #$10".toList)
    ['\n', ' ', '\t'] "LDA #$10".toList (by decide) (by decide)

/-- Claim C18, evaluated on the code.  On the text `0200,X`, whose first token is the
maximal alphanumeric run `0200` of length 4, `next_token` leaves the cursor and the token
end at offset 8, not 4: two characters past the end of the six-character source.  The
`,X` after the literal is skipped, and the next call returns end of input.  (The `isalnum`
loop has moved the cursor to the end of the run when the `len == 4` branch adds 4.) -/
theorem next_token_word_overshoots :
    (next_token (init_tokenizer "0200,X".toList)).map
        (fun t => (t.kind, t.start, t.pt, t.end_, t.string.length)) =
        Except.ok (TokenKind.TokenWord, 0, 8, 8, 6) ∧
      (next_tokens 2 (init_tokenizer "0200,X".toList)).map Tokenizer.kind =
        Except.ok TokenKind.TokenEof := by
  decide

/-- Claim C20.  In every tokenizer state whose next token is a maximal alphanumeric run of
three characters `a b c` (after any whitespace `ws`): when the run is not exactly `LDA`,
`parse_instruction` reports no error, returns the all-zero instruction (`InstrAdd`,
`ModeAcc`, operands 0) and leaves the cursor at the end of the run, so that no token after
the mnemonic is consumed; when the run is `LDA`, it runs `parse_lda` from the end of the
run. -/
theorem parse_instruction_dispatch (t : Tokenizer) (ws rest : List Char) (a b c : Char)
    (hsrc : t.string.drop t.pt = ws ++ ([a, b, c] ++ rest))
    (hws : ∀ d ∈ ws, is_space d = true)
    (hrun : ∀ d ∈ [a, b, c], isalnum d = true)
    (hrest : ∀ d ∈ rest.head?, isalnum d = false) :
    ([a, b, c] ≠ ['L', 'D', 'A'] →
      parse_instruction t = Except.ok
        ({ kind := InstrKind.InstrAdd, mode := some Mode.ModeAcc, op1 := some 0,
           op2 := some 0, reg := some Register.RegA },
         { t with
           pt := t.pt + ws.length + 3, line := t.line + ws.count '\n',
           start := t.pt + ws.length, end_ := t.pt + ws.length + 3,
           kind := TokenKind.TokenInstr })) ∧
    ([a, b, c] = ['L', 'D', 'A'] →
      parse_instruction t = parse_lda
        { t with
          pt := t.pt + ws.length + 3, line := t.line + ws.count '\n',
          start := t.pt + ws.length, end_ := t.pt + ws.length + 3,
          kind := TokenKind.TokenInstr }) := by
  have hdrop := drop_past_whitespace hsrc
  have hk := (next_token_run_kind
    { t with pt := t.pt + ws.length, line := t.line + ws.count '\n' } [a, b, c] rest
    hdrop hrun hrest).2.1 rfl
  have htok : next_token t = Except.ok
      { t with
        pt := t.pt + ws.length + 3, line := t.line + ws.count '\n',
        start := t.pt + ws.length, end_ := t.pt + ws.length + 3,
        kind := TokenKind.TokenInstr } :=
    (next_token_skip_whitespace t ws _ hsrc hws).trans hk
  have ea : char_at t.string (t.pt + ws.length) = a := char_at_of_drop hdrop 0
  have eb : char_at t.string (t.pt + ws.length + 1) = b := char_at_of_drop hdrop 1
  have ec : char_at t.string (t.pt + ws.length + 2) = c := char_at_of_drop hdrop 2
  constructor
  · intro hne
    have hcond : ¬(a = 'L' ∧ b = 'D' ∧ c = 'A') := by
      rintro ⟨rfl, rfl, rfl⟩
      exact hne rfl
    simp only [parse_instruction, expect_token, htok, bind, Except.bind, ne_eq,
      not_true_eq_false, if_false, pure, Except.pure, ea, eb, ec, hcond]
    rfl
  · intro heq
    have hcond : a = 'L' ∧ b = 'D' ∧ c = 'A' := by
      simp only [List.cons.injEq, and_true] at heq
      exact heq
    simp only [parse_instruction, expect_token, htok, bind, Except.bind, ne_eq,
      not_true_eq_false, if_false, pure, Except.pure, ea, eb, ec, hcond, and_self, if_true]

/-- Witness for claim C20: `lda`, `STA` and `123` before ` #$10` give the all-zero
instruction with the cursor at offset 3, and `LDA` runs the LDA grammar. -/
theorem parse_instruction_dispatch_witness :
    (parse_instruction (init_tokenizer "lda #$10".toList)).map
        (fun r => (r.1, r.2.pt)) = Except.ok (Instr.zero, 3) ∧
      (parse_instruction (init_tokenizer "STA #$10".toList)).map
        (fun r => (r.1, r.2.pt)) = Except.ok (Instr.zero, 3) ∧
      (parse_instruction (init_tokenizer "123 #$10".toList)).map
        (fun r => (r.1, r.2.pt)) = Except.ok (Instr.zero, 3) ∧
      parse_instruction (init_tokenizer "LDA #$10".toList) =
        parse_lda { init_tokenizer "LDA #$10".toList with
          pt := 3, start := 0, end_ := 3, kind := TokenKind.TokenInstr } :=
  ⟨by
      rw [(parse_instruction_dispatch (init_tokenizer "lda #$10".toList) [] " #$10".toList
        'l' 'd' 'a' (by decide) (by decide) (by decide) (by decide)).1 (by decide)]
      rfl,
    by
      rw [(parse_instruction_dispatch (init_tokenizer "STA #$10".toList) [] " #$10".toList
        'S' 'T' 'A' (by decide) (by decide) (by decide) (by decide)).1 (by decide)]
      rfl,
    by
      rw [(parse_instruction_dispatch (init_tokenizer "123 #$10".toList) [] " #$10".toList
        '1' '2' '3' (by decide) (by decide) (by decide) (by decide)).1 (by decide)]
      rfl,
    (parse_instruction_dispatch (init_tokenizer "LDA #$10".toList) [] " #$10".toList
      'L' 'D' 'A' (by decide) (by decide) (by decide) (by decide)).2 rfl⟩

/-- Claim C19, evaluated on the code.  An iteration of the parse loop can go on without
consuming a three-character mnemonic.  Over `STA G5 G5 G5` the loop ends without error
after pushing two instructions, although the text has a single three-character run: the
second iteration starts in the state left by the first (cursor at offset 6, kind
`TokenInstr`), its end-of-input test reads the two-character run `G5` at offsets 7-9 and
`parse_instruction` accepts the next `G5` at offsets 10-12 as the mnemonic, because a
two-character run that is not hex leaves the kind `TokenInstr` of the previous token in
place. -/
theorem parse_loop_iteration_without_mnemonic :
    process_file "STA G5 G5 G5".toList = some (Except.ok [Instr.zero, Instr.zero]) ∧
      (match_token TokenKind.TokenEof (init_tokenizer "STA G5 G5 G5".toList) >>=
          fun r => parse_instruction r.2) =
        Except.ok (Instr.zero,
          { string := "STA G5 G5 G5".toList, pt := 6, kind := TokenKind.TokenInstr,
            start := 4, end_ := 6, val := 0, line := 1 }) ∧
      match_token TokenKind.TokenEof
          { string := "STA G5 G5 G5".toList, pt := 6, kind := TokenKind.TokenInstr,
            start := 4, end_ := 6, val := 0, line := 1 } =
        Except.ok (false,
          { string := "STA G5 G5 G5".toList, pt := 9, kind := TokenKind.TokenInstr,
            start := 7, end_ := 9, val := 0, line := 1 }) ∧
      parse_instruction
          { string := "STA G5 G5 G5".toList, pt := 9, kind := TokenKind.TokenInstr,
            start := 7, end_ := 9, val := 0, line := 1 } =
        Except.ok (Instr.zero,
          { string := "STA G5 G5 G5".toList, pt := 12, kind := TokenKind.TokenInstr,
            start := 10, end_ := 12, val := 0, line := 1 }) := by
  decide

/-- Termination of the parse loop.  For every source text the parse loop of `process_file`
returns, with the instructions pushed when it reaches end of input or with the first
error; the loop returns from every tokenizer state within one iteration more than there
are characters from the cursor to the end of the text, because every iteration that
neither stops nor fails starts with the cursor inside the text and moves it forward by at
least three characters. -/
theorem process_file_terminates :
    (∀ str : List Char, ∃ r, process_file str = some r) ∧
      (∀ (fuel : Nat) (t : Tokenizer) (instructions : List Instr),
        t.string.length - t.pt < fuel → ∃ r, parse_loop fuel t instructions = some r) ∧
      (∀ (t tA t' : Tokenizer) (i : Instr),
        match_token TokenKind.TokenEof t = Except.ok (false, tA) →
        parse_instruction tA = Except.ok (i, t') →
        t'.string = t.string ∧ t.pt + 3 ≤ t'.pt ∧ t.pt < t.string.length) := by
  refine ⟨fun str => ?_, parse_loop_returns, fun t tA t' i hA hB => parse_loop_iteration hA hB⟩
  exact parse_loop_returns _ _ _ (by simp [init_tokenizer])

/-- An instance of `process_file_terminates`: the source `LDA LDA #$10`, whose only
iteration that goes on moves the cursor from 0 to 12. -/
theorem process_file_terminates_witness :
    (∃ r, process_file "LDA LDA #$10".toList = some r) ∧
      (∃ r, parse_loop 13 (init_tokenizer "LDA LDA #$10".toList) [] = some r) ∧
      ("LDA LDA #$10".toList = "LDA LDA #$10".toList ∧ 0 + 3 ≤ 12 ∧
        0 < "LDA LDA #$10".toList.length) :=
  ⟨process_file_terminates.1 _,
    process_file_terminates.2.1 13 (init_tokenizer "LDA LDA #$10".toList) [] (by decide),
    process_file_terminates.2.2 (init_tokenizer "LDA LDA #$10".toList)
      { string := "LDA LDA #$10".toList, pt := 3, kind := TokenKind.TokenInstr,
        start := 0, end_ := 3, val := 0, line := 1 }
      { string := "LDA LDA #$10".toList, pt := 12, kind := TokenKind.TokenByte,
        start := 10, end_ := 12, val := 0x10, line := 1 }
      { kind := InstrKind.InstrLda, mode := some Mode.ModeImm, op1 := some 0x10,
        op2 := none, reg := none }
      (by decide) (by decide)⟩

end M6502
